import Mathlib

/-!
Shallow embedding of the hybrid retrieval engine of `startup-rag`
(src/vector_store.py, src/rag_pipeline.py, src/api.py).

Modelling conventions:
* Python floats are modelled as exact rationals (`ℚ`).
* The transcendental library calls `np.log2` and `np.log1p` are abstract
  function parameters: every statement about score arithmetic holds for an
  arbitrary interpretation of these two functions.
* The external Qdrant backend, the embedding provider and the `rank_bm25`
  scoring call (`BM25Okapi.get_scores`) are external collaborators; their
  outcomes enter the model as explicit parameters, while all control flow
  and data manipulation of the repository's own code is translated
  directly from the source.
* Python's `re.findall` over the two fixed token patterns is modelled by a
  specialised scanner with the same leftmost, greedy, word-boundary and
  backtracking behaviour, over ASCII word characters.
* `numpy.argsort` is modelled as a stable ascending sort (numpy uses
  insertion sort, which is stable, for the small arrays at play here).
-/

/-- Stopword set from `src/vector_store.py` (`STOPWORDS`).  Membership is all
that matters, so the Python set literal is transcribed as a list. -/
def STOPWORDS : List String :=
  ["a", "an", "and", "are", "as", "at", "be", "by", "for", "from", "has", "he",
   "in", "is", "it", "its", "of", "on", "or", "that", "the", "to", "was", "will",
   "with", "this", "but", "they", "have", "had", "what", "when", "where", "who",
   "which", "why", "how", "all", "each", "every", "both", "few", "more", "most",
   "other", "some", "such", "no", "nor", "not", "only", "same", "than", "too",
   "very", "can", "just", "should", "now", "i", "me", "you", "him", "her", "us",
   "them", "my", "your", "his", "our", "their"]

/-- Python regex word character (`\w`) over the ASCII texts we model:
letters, digits and underscore. -/
def isWordChar (c : Char) : Bool := c.isAlphanum || c = '_'

/-- Character class `[a-z]` of the first token pattern. -/
def isLowerAlpha (c : Char) : Bool := 'a' ≤ c && c ≤ 'z'

/-- Character class `[a-z0-9]` shared by both token patterns. -/
def isAlnum09 (c : Char) : Bool := isLowerAlpha c || c.isDigit

/-- Word boundary `\b` before the current position, given the previous
character (`none` at the start of the text).  Both patterns start with a
word character, so the boundary holds exactly when the previous character
is absent or not a word character. -/
def bndBefore (prev : Option Char) : Bool :=
  match prev with
  | none => true
  | some c => !isWordChar c

/-- Word boundary `\b` after a match ending in a word character: the rest of
the text is empty or starts with a non-word character. -/
def bndAfter (cs : List Char) : Bool :=
  match cs with
  | [] => true
  | c :: _ => !isWordChar c

/-- Greedy matcher for `(?:-[a-z0-9]+)*` of the first token pattern: collects
the hyphen-run segments and returns them with the unconsumed rest. -/
def collectSegs : Nat → List Char → List (List Char) × List Char
  | 0, cs => ([], cs)
  | fuel + 1, cs =>
    match cs with
    | '-' :: c :: rest =>
      if isAlnum09 c then
        let run := (c :: rest).takeWhile isAlnum09
        let rest2 := (c :: rest).dropWhile isAlnum09
        let (segs, r) := collectSegs fuel rest2
        (('-' :: run) :: segs, r)
      else ([], cs)
    | _ => ([], cs)

/-- Single match attempt of pattern 1, `\b[a-z][a-z0-9]*(?:-[a-z0-9]+)*\b`,
at the current position (the caller has already checked the leading
boundary and that the head is `[a-z]`).  Greedy matching takes the maximal
`[a-z0-9]` core and all hyphen segments; if the trailing `\b` fails,
regex backtracking gives back exactly the last hyphen segment (any shorter
retreat ends between two word characters and fails again), and with no
segment to give back the position yields no match. -/
def pass1At (cs : List Char) : Option (List Char × List Char) :=
  let core := cs.takeWhile isAlnum09
  let rest1 := cs.dropWhile isAlnum09
  let (segs, rest2) := collectSegs rest1.length rest1
  if bndAfter rest2 then some (core ++ segs.flatten, rest2)
  else
    match segs.getLast? with
    | none => none
    | some lastSeg => some (core ++ segs.dropLast.flatten, lastSeg ++ rest2)

/-- Single match attempt of pattern 2, `\b[a-z0-9]+(?:\d{1,2})*\b` (the
second group is redundant after the greedy first group): a maximal
`[a-z0-9]` run succeeding only when followed by a boundary; backtracking
inside the run always lands between two word characters, so a failing
trailing boundary means no match at this position. -/
def pass2At (cs : List Char) : Option (List Char × List Char) :=
  let run := cs.takeWhile isAlnum09
  let rest := cs.dropWhile isAlnum09
  if bndAfter rest then some (run, rest) else none

/-- `re.findall` scan for pattern 1: leftmost non-overlapping matches,
advancing one character when no match starts at the current position. -/
def scan1 : Nat → Option Char → List Char → List (List Char)
  | 0, _, _ => []
  | _, _, [] => []
  | fuel + 1, prev, c :: rest =>
    if bndBefore prev && isLowerAlpha c then
      match pass1At (c :: rest) with
      | some (m, rem) => m :: scan1 fuel (some (m.getLastD c)) rem
      | none => scan1 fuel (some c) rest
    else scan1 fuel (some c) rest

/-- `re.findall` scan for pattern 2. -/
def scan2 : Nat → Option Char → List Char → List (List Char)
  | 0, _, _ => []
  | _, _, [] => []
  | fuel + 1, prev, c :: rest =>
    if bndBefore prev && isAlnum09 c then
      match pass2At (c :: rest) with
      | some (m, rem) => m :: scan2 fuel (some (m.getLastD c)) rem
      | none => scan2 fuel (some c) rest
    else scan2 fuel (some c) rest

/-- Order-preserving first-occurrence deduplication, the `seen`/`result`
loop at the end of `_tokenize_and_stem`. -/
def dedupFirstAux : List String → List String → List String
  | _, [] => []
  | seen, t :: rest =>
    if t ∈ seen then dedupFirstAux seen rest
    else t :: dedupFirstAux (t :: seen) rest

/-- The token filter of `_tokenize_and_stem`:
`token not in STOPWORDS and len(token) > 1`. -/
def keepToken (t : String) : Bool := decide (t ∉ STOPWORDS) && decide (1 < t.length)

/-- `VectorStore._tokenize_and_stem`: lowercase, run both `re.findall`
passes (pattern 1 then pattern 2, concatenated in that order), filter out
stopwords and single-character tokens, deduplicate preserving first
occurrence. -/
def tokenize_and_stem (text : String) : List String :=
  let cs := text.toList.map Char.toLower
  let toks1 := scan1 cs.length none cs
  let toks2 := scan2 cs.length none cs
  let tokens := (toks1 ++ toks2).map String.mk
  let filtered := tokens.filter keepToken
  dedupFirstAux [] filtered

example : tokenize_and_stem "crispr-cas9" = ["crispr-cas9", "crispr", "cas9"] := by decide
example : tokenize_and_stem "CRISPR gene editing" = ["crispr", "gene", "editing"] := by decide
example : tokenize_and_stem "the a i" = [] := by decide
example : tokenize_and_stem "ab_cd ef" = ["ef"] := by decide

/-- Python `str.strip()`: remove whitespace from both ends. -/
def pyStrip (s : String) : String :=
  String.mk (((s.toList.dropWhile Char.isWhitespace).reverse.dropWhile Char.isWhitespace).reverse)

/-- `np.argsort(scores)` modelled as a stable ascending sort of the index
range (numpy falls back to insertion sort, which is stable, on the small
arrays this code produces). -/
def argsortAsc (scores : List ℚ) : List Nat :=
  List.insertionSort (fun i j => scores.getD i 0 ≤ scores.getD j 0) (List.range scores.length)

/-- Python tail slice `a[-k:]`: the last `k` elements — the whole list when
`k = 0`, since `a[-0:]` is `a[0:]`. -/
def pyTailSlice {α : Type} (l : List α) (k : Nat) : List α :=
  if k = 0 then l else l.drop (l.length - k)

/-- Candidate selection of `_bm25_search` after scoring: walk
`np.argsort(scores)[-top_k:][::-1]` and keep, in that order, the documents
whose score is strictly positive. -/
def bm25Select (texts : List String) (scores : List ℚ) (top_k : Nat) : List (String × ℚ) :=
  let topIndices := (pyTailSlice (argsortAsc scores) top_k).reverse
  topIndices.filterMap fun idx =>
    if 0 < scores.getD idx 0 then some (texts.getD idx "", scores.getD idx 0) else none

/-- `VectorStore._bm25_search`: empty result when the index was never built
or the corpus is empty; otherwise tokenize the query, obtain the library
scores (`BM25Okapi.get_scores`, the abstract parameter `getScores`) and
select candidates. -/
def bm25_search (getScores : List (List String) → List String → List ℚ)
    (bm25_index : Option (List (List String))) (bm25_texts : List String)
    (query : String) (top_k : Nat) : List (String × ℚ) :=
  match bm25_index with
  | none => []
  | some corpus =>
    if bm25_texts.isEmpty then []
    else bm25Select bm25_texts (getScores corpus (tokenize_and_stem query)) top_k

/-- A vector sub-search hit `(id, score, content, payload)` as produced by
`_vector_search` from the backend response. -/
structure VecHit where
  pid : Nat
  score : ℚ
  content : String
  payload : List (String × String)
deriving DecidableEq

/-- A value of the `combined` dict built inside `hybrid_search`. -/
structure FusionEntry where
  vector_score : ℚ
  bm25_score : ℚ
  metadata : List (String × String)
  content : String
deriving DecidableEq

/-- An element of the result list of `hybrid_search`. -/
structure SearchResult where
  content : String
  metadata : List (String × String)
  vector_score : ℚ
  bm25_score : ℚ
  combined_score : ℚ
deriving DecidableEq

/-- Python dict assignment `combined[key] = e`: replace in place when the
key is present (dicts keep the original insertion position), else append. -/
def dictInsert (m : List (String × FusionEntry)) (key : String) (e : FusionEntry) :
    List (String × FusionEntry) :=
  if m.any (fun kv => kv.1 = key) then
    m.map fun kv => if kv.1 = key then (key, e) else kv
  else m ++ [(key, e)]

/-- The BM25 matching loop inside `hybrid_search`: scan `combined` in order
and set the `bm25_score` field of the first entry whose key equals the
stripped text (then `break`); `none` when no entry matches. -/
def setBm25 : List (String × FusionEntry) → String → ℚ → Option (List (String × FusionEntry))
  | [], _, _ => none
  | (k, e) :: rest, key, b =>
    if k = key then some ((k, { e with bm25_score := b }) :: rest)
    else (setBm25 rest key b).map fun m => (k, e) :: m

/-- The vector loop of `hybrid_search`, with `i` the 0-based index of
`enumerate`: each hit is written into `combined` under its
whitespace-stripped content with contribution
`vector_weight * max(0, (score+1)/2) * (1/log2(rank+1))`, `rank = i+1`. -/
def processVector (log2 : ℚ → ℚ) (vector_weight : ℚ) :
    Nat → List VecHit → List (String × FusionEntry) → List (String × FusionEntry)
  | _, [], m => m
  | i, h :: rest, m =>
    let rank : ℚ := (i : ℚ) + 1
    let normalized : ℚ := max 0 ((h.score + 1) / 2)
    let vscore := vector_weight * normalized * (1 / log2 (rank + 1))
    processVector log2 vector_weight (i + 1) rest
      (dictInsert m (pyStrip h.content) ⟨vscore, 0, h.payload, h.content⟩)

/-- The BM25 loop of `hybrid_search`: the pair at 0-based index `i`
contributes `bm25_weight * log1p(score) * (1/log2(rank+1))` with
`rank = i+1`; a matching key gets its `bm25_score` field set, an unmatched
one appends a fresh entry with vector score 0 and metadata
`content`/`doc_type: unknown`. -/
def processBm25 (log2 log1p : ℚ → ℚ) (bm25_weight : ℚ) :
    Nat → List (String × ℚ) → List (String × FusionEntry) → List (String × FusionEntry)
  | _, [], m => m
  | i, (text, score) :: rest, m =>
    let rank : ℚ := (i : ℚ) + 1
    let bm25_normalized := log1p score
    let bscore := bm25_weight * bm25_normalized * (1 / log2 (rank + 1))
    let key := pyStrip text
    let m2 := match setBm25 m key bscore with
      | some m1 => m1
      | none => m ++ [(key, ⟨0, bscore, [("content", text), ("doc_type", "unknown")], text⟩)]
    processBm25 log2 log1p bm25_weight (i + 1) rest m2

/-- Combined score of an entry, the sort key of the final ranking. -/
def entryTotal (kv : String × FusionEntry) : ℚ := kv.2.vector_score + kv.2.bm25_score

/-- `sorted(combined.items(), key=..., reverse=True)`: Python's sort is
stable and `reverse=True` keeps equal-key items in insertion order, which
is insertion sort under the reflexive descending comparison. -/
def rankCombined (m : List (String × FusionEntry)) : List (String × FusionEntry) :=
  List.insertionSort (fun a b => entryTotal b ≤ entryTotal a) m

/-- Score fusion of `hybrid_search`: both loops over the sub-results, the
stable descending sort, truncation to `top_k`, and assembly of the result
records (`combined_score` recomputed as the sum of the two parts). -/
def fusionRank (log2 log1p : ℚ → ℚ) (weights : ℚ × ℚ)
    (vector_results : List VecHit) (bm25_results : List (String × ℚ))
    (top_k : Nat) : List SearchResult :=
  let combined := processBm25 log2 log1p weights.2 0 bm25_results
    (processVector log2 weights.1 0 vector_results [])
  let ranked := (rankCombined combined).take top_k
  ranked.map fun kv =>
    ⟨kv.2.content, kv.2.metadata, kv.2.vector_score, kv.2.bm25_score,
     kv.2.vector_score + kv.2.bm25_score⟩

/-- Typed stand-ins for the exceptions crossing the backend boundary. -/
inductive EngineError where
  | collectionNotFound : EngineError
  | embeddingFailure : EngineError
  | backendCreate : Option Nat → EngineError
  | backendUpsert : EngineError
deriving DecidableEq

/-- A point stored in the backend collection:
`{id, vector, payload = metadata ∪ {content}}` (the vector itself plays no
role in any claim and is not recorded). -/
structure PointRec where
  id : Nat
  content : String
  payload : List (String × String)
deriving DecidableEq

/-- State of a `VectorStore` together with the backend collection it talks
to: `collection = none` models a missing backend collection. -/
structure EngineState where
  collection : Option (List PointRec)
  bm25_index : Option (List (List String))
  bm25_texts : List String
deriving DecidableEq

/-- A freshly constructed `VectorStore`: `_ensure_collection_exists` probes
the collection but creates nothing on failure, `bm25_index` is `None` and
`bm25_texts` is empty. -/
def emptyEngine : EngineState := ⟨none, none, []⟩

/-- `VectorStore._vector_search`: embed the query and call
`client.search`.  The backend raises when the collection is missing and
`_vector_search` installs no handler, so that error propagates; otherwise
the nearest-neighbour response is the abstract parameter `backendHits`
(a function of the requested limit). -/
def vector_search (backendHits : Nat → List VecHit) (st : EngineState)
    (top_k : Nat) : Except EngineError (List VecHit) :=
  match st.collection with
  | none => .error .collectionNotFound
  | some _ => .ok (backendHits top_k)

/-- `VectorStore.hybrid_search`: request `top_k*2` candidates from each
sub-search and fuse them; a vector sub-search failure propagates to the
caller. -/
def hybrid_search (backendHits : Nat → List VecHit)
    (getScores : List (List String) → List String → List ℚ)
    (log2 log1p : ℚ → ℚ) (st : EngineState) (query : String) (top_k : Nat)
    (weights : ℚ × ℚ) : Except EngineError (List SearchResult) :=
  match vector_search backendHits st (top_k * 2) with
  | .error e => .error e
  | .ok vector_results =>
    let bm25_results :=
      bm25_search getScores st.bm25_index st.bm25_texts query (top_k * 2)
    .ok (fusionRank log2 log1p weights vector_results bm25_results top_k)

/-- A chunk record as consumed by `add_documents`. -/
structure Chunk where
  content : String
  metadata : List (String × String)
deriving DecidableEq

/-- `VectorStore._generate_id` composed with its use in `add_documents`
(`int(chunk_id, 16) % (2**63 - 1)`): the MD5 hex digest of the content,
read as a number, reduced modulo `2^63 - 1`.  MD5 is an external library
function and enters as the abstract parameter `md5Nat` (the digest as a
128-bit number). -/
def pointId (md5Nat : String → Nat) (content : String) : Nat :=
  md5Nat content % (2 ^ 63 - 1)

/-- The per-chunk loop of `add_documents`: for each chunk in order, an id is
derived from the content, the raw text collected and an embedding
requested; a failing embedding aborts the whole call before any write. -/
def buildPoints (md5Nat : String → Nat) (embed : String → Except EngineError (List ℚ)) :
    List Chunk → Except EngineError (List PointRec × List String)
  | [] => .ok ([], [])
  | c :: rest =>
    match embed c.content with
    | .error e => .error e
    | .ok _vec =>
      match buildPoints md5Nat embed rest with
      | .error e => .error e
      | .ok (pts, texts) =>
        .ok (⟨pointId md5Nat c.content, c.content,
              ("content", c.content) :: c.metadata⟩ :: pts, c.content :: texts)

/-- Backend upsert semantics: a point with an existing id overwrites the
stored point, a fresh id appends. -/
def upsertPoints (stored : List PointRec) (pts : List PointRec) : List PointRec :=
  pts.foldl
    (fun acc p =>
      if acc.any (fun q => q.id = p.id) then
        acc.map fun q => if q.id = p.id then p else q
      else acc ++ [p])
    stored

/-- Collection ensure-step of `add_documents`: the `get_collection` probe
has a handler catching every exception, so a failed probe falls through to
`create_collection`, whose `UnexpectedResponse` is swallowed exactly when
the status is 409 (conflict); any other creation failure propagates.
`createOutcome` is the abstract backend outcome: `.ok` a successful
creation, `.error (some s)` an `UnexpectedResponse` with status `s`,
`.error none` any other exception. -/
def ensureCollection (getCollectionOk : Bool) (createOutcome : Except (Option Nat) Unit)
    (st : EngineState) : Except EngineError EngineState :=
  if getCollectionOk then .ok st
  else
    match createOutcome with
    | .ok _ => .ok { st with collection := some (st.collection.getD []) }
    | .error (some s) => if s = 409 then .ok st else .error (.backendCreate (some s))
    | .error none => .error (.backendCreate none)

/-- `VectorStore._update_bm25_index_append`: extend the raw-text corpus and
rebuild the whole BM25 index from scratch over the extended corpus. -/
def update_bm25_index_append (st : EngineState) (new_texts : List String) : EngineState :=
  if new_texts.isEmpty then st
  else
    let texts := st.bm25_texts ++ new_texts
    { st with bm25_texts := texts, bm25_index := some (texts.map tokenize_and_stem) }

/-- `VectorStore.add_documents`: early return on an empty batch; otherwise
build ids and embeddings per chunk, ensure the collection exists, upsert
the points (`upsertOutcome` is the abstract backend outcome), and only
then append the batch texts to the lexical index.  The result pairs the
state as left by the call with its outcome, so a raising path records
exactly which mutations had already happened. -/
def add_documents (md5Nat : String → Nat) (embed : String → Except EngineError (List ℚ))
    (getCollectionOk : Bool) (createOutcome : Except (Option Nat) Unit)
    (upsertOutcome : Except Unit Unit)
    (st : EngineState) (chunks : List Chunk) : EngineState × Except EngineError Unit :=
  if chunks.isEmpty then (st, .ok ())
  else
    match buildPoints md5Nat embed chunks with
    | .error e => (st, .error e)
    | .ok (points, texts) =>
      match ensureCollection getCollectionOk createOutcome st with
      | .error e => (st, .error e)
      | .ok st1 =>
        match upsertOutcome with
        | .error _ => (st1, .error .backendUpsert)
        | .ok _ =>
          let st2 := { st1 with
            collection := some (upsertPoints (st1.collection.getD []) points) }
          (update_bm25_index_append st2 texts, .ok ())

/-- `RAGPipeline` state: the vector store plus the ingestion ledger
`processed_documents` (whose records are opaque to every claim and are
abstracted to strings). -/
structure PipelineState where
  engine : EngineState
  processed_documents : List String
deriving DecidableEq

/-- `VectorStore.delete_collection`: delete the backend collection,
swallowing every error (in particular not-found), so the call is total and
afterwards the backend collection is gone. -/
def delete_collection (st : EngineState) : EngineState :=
  { st with collection := none }

/-- `RAGPipeline.clear`: delete the backend collection and reset the
ingestion ledger — the translation of the method body, which touches
nothing else. -/
def clear (p : PipelineState) : PipelineState :=
  { p with engine := delete_collection p.engine, processed_documents := [] }

/-- Errors surfaced by the `/search` handler: a 400 validation rejection or
a 500 wrapping an engine failure. -/
inductive ApiError where
  | validation : ApiError
  | engine : EngineError → ApiError
deriving DecidableEq

/-- The `/search` handler `search_documents` with `RAGPipeline.search`
inlined (no query expansion, `doc_type` absent, default weights
`(0.3, 0.7)`): an empty or whitespace-only query is rejected as a 400
before the engine is touched; any engine failure surfaces as a 500.
`top_k` comes from the request model `SearchQuery`, which declares it as a
plain `int` with no constraint. -/
def api_search (backendHits : Nat → List VecHit)
    (getScores : List (List String) → List String → List ℚ)
    (log2 log1p : ℚ → ℚ) (st : EngineState) (query : String) (top_k : Nat) :
    Except ApiError (List SearchResult) :=
  if pyStrip query = "" then .error .validation
  else
    match hybrid_search backendHits getScores log2 log1p st query top_k (3/10, 7/10) with
    | .error e => .error (.engine e)
    | .ok rs => .ok rs

/-- Spec-side tokenizer for claim C8, following the claim's words:
lowercase, extract exactly the tokens of alphanumerics with internal
hyphens (one token per hyphenated compound — pattern 1 alone), drop
stopwords and single-character tokens, deduplicate preserving first
occurrence. -/
def tokenizeClaimC8 (text : String) : List String :=
  let cs := text.toList.map Char.toLower
  let tokens := (scan1 cs.length none cs).map String.mk
  dedupFirstAux [] (tokens.filter keepToken)

/-- C1 (code behaviour at the failing input): on the empty engine — fresh
store, missing backend collection, uninitialized lexical index —
`hybrid_search` does not return `[]`: the unguarded `client.search` call
raises on the missing collection and the error propagates, for every
query, every `K`, every weight pair and every interpretation of the
external collaborators. -/
theorem c1_empty_engine_search_raises
    (backendHits : Nat → List VecHit)
    (getScores : List (List String) → List String → List ℚ)
    (log2 log1p : ℚ → ℚ) (query : String) (top_k : Nat) (weights : ℚ × ℚ) :
    hybrid_search backendHits getScores log2 log1p emptyEngine query top_k weights
      = .error .collectionNotFound := rfl

/-- A pipeline state holding one ingested chunk, the failing input for C2. -/
def c2FailingState : PipelineState :=
  ⟨⟨some [⟨1, "hello world", [("content", "hello world")]⟩],
    some [["hello", "world"]], ["hello world"]⟩, ["record of hello world"]⟩

/-- C2 (code behaviour at the failing input): `clear()` deletes the backend
collection and resets the ingestion ledger, but leaves the in-memory
lexical corpus intact — after `clear` on a state holding one indexed text,
`bm25_texts` and `bm25_index` still hold the old document. -/
theorem c2_clear_leaves_lexical_corpus :
    (clear c2FailingState).engine.collection = none ∧
    (clear c2FailingState).processed_documents = [] ∧
    (clear c2FailingState).engine.bm25_texts = ["hello world"] ∧
    (clear c2FailingState).engine.bm25_index = some [["hello", "world"]] :=
  ⟨rfl, rfl, rfl, rfl⟩

/-- The state reached by a successful `ensureCollection` differs from the
input state at most in the backend collection. -/
theorem ensureCollection_preserves_lexical (gOk : Bool) (cOut : Except (Option Nat) Unit)
    (st st1 : EngineState) (h : ensureCollection gOk cOut st = .ok st1) :
    st1.bm25_texts = st.bm25_texts ∧ st1.bm25_index = st.bm25_index := by
  unfold ensureCollection at h
  split at h
  · cases h; exact ⟨rfl, rfl⟩
  · split at h
    · cases h; exact ⟨rfl, rfl⟩
    · split at h
      · cases h; exact ⟨rfl, rfl⟩
      · cases h
    · cases h

/-- C3: whenever `add_documents` fails — embedding, collection creation or
upsert, i.e. any step up to and including the vector write — the lexical
corpus `bm25_texts` and the BM25 index are left exactly as they were
before the call. -/
theorem c3_failed_ingestion_preserves_lexical_state
    (md5Nat : String → Nat) (embed : String → Except EngineError (List ℚ))
    (gOk : Bool) (cOut : Except (Option Nat) Unit) (uOut : Except Unit Unit)
    (st : EngineState) (chunks : List Chunk) (e : EngineError)
    (hfail : (add_documents md5Nat embed gOk cOut uOut st chunks).2 = .error e) :
    (add_documents md5Nat embed gOk cOut uOut st chunks).1.bm25_texts = st.bm25_texts ∧
    (add_documents md5Nat embed gOk cOut uOut st chunks).1.bm25_index = st.bm25_index := by
  unfold add_documents at hfail ⊢
  cases hc : chunks.isEmpty
  case true =>
    rw [if_pos hc] at hfail
    exact absurd hfail (by simp)
  case false =>
    rw [if_neg (by simp [hc])] at hfail ⊢
    cases hbp : buildPoints md5Nat embed chunks with
    | error e2 =>
      exact ⟨rfl, rfl⟩
    | ok pt =>
      obtain ⟨points, texts⟩ := pt
      cases hec : ensureCollection gOk cOut st with
      | error e2 =>
        exact ⟨rfl, rfl⟩
      | ok st1 =>
        cases uOut with
        | error u =>
          exact ensureCollection_preserves_lexical gOk cOut st st1 hec
        | ok u =>
          simp [hbp, hec] at hfail

/-- A concrete engine state with one previously indexed text, used by the
C3 witness. -/
def c3State : EngineState := ⟨some [], some [["old", "text"]], ["old text"]⟩

/-- Witness for C3: a concrete batch whose upsert fails leaves the concrete
lexical state untouched. -/
theorem c3_witness :
    (add_documents (fun _ => 5) (fun _ => .ok [1]) true (.ok ()) (.error ())
        c3State [⟨"new text", []⟩]).1.bm25_texts = c3State.bm25_texts ∧
    (add_documents (fun _ => 5) (fun _ => .ok [1]) true (.ok ()) (.error ())
        c3State [⟨"new text", []⟩]).1.bm25_index = c3State.bm25_index :=
  c3_failed_ingestion_preserves_lexical_state (fun _ => 5) (fun _ => .ok [1]) true
    (.ok ()) (.error ()) c3State [⟨"new text", []⟩] .backendUpsert rfl

/-- C7: the content-addressed point id is a deterministic function of the
content (byte-identical content yields the identical id) and always lies in
`[0, 2^63 - 1)`, for every interpretation of the MD5 digest. -/
theorem c7_point_id_deterministic_and_bounded (md5Nat : String → Nat) (c : String) :
    (∀ c2, c2 = c → pointId md5Nat c2 = pointId md5Nat c) ∧
    pointId md5Nat c < 2 ^ 63 - 1 :=
  ⟨fun _ h => by rw [h], Nat.mod_lt _ (by norm_num)⟩

/-- Witness for C7 at a concrete digest function and concrete content. -/
theorem c7_witness :
    pointId (fun s => s.length) "abc" = pointId (fun s => s.length) "abc" ∧
    pointId (fun s => s.length) "abc" < 2 ^ 63 - 1 :=
  ⟨(c7_point_id_deterministic_and_bounded (fun s => s.length) "abc").1 "abc" rfl,
   (c7_point_id_deterministic_and_bounded (fun s => s.length) "abc").2⟩

/-- C10: `add_documents` on an empty chunk sequence is a no-op: for every
interpretation of the external collaborators — in particular even ones
whose embedding or backend calls would fail — the state, hence also
`bm25_texts` and the BM25 index, is returned unchanged with a normal
outcome, so neither the embedding provider nor the backend can influence
the result. -/
theorem c10_add_documents_empty_noop (md5Nat : String → Nat)
    (embed : String → Except EngineError (List ℚ)) (gOk : Bool)
    (cOut : Except (Option Nat) Unit) (uOut : Except Unit Unit) (st : EngineState) :
    add_documents md5Nat embed gOk cOut uOut st [] = (st, .ok ()) := rfl

/-- C9 counterexample: `K = 0` is not rejected as a validation error — the
`/search` path proceeds into the engine and performs the backend search
(here, on an engine whose collection is missing, it surfaces the backend
error, so the I/O attempt did happen). -/
theorem c9_counterexample :
    api_search (fun _ => []) (fun _ _ => []) (fun q => q) (fun q => q)
        emptyEngine "hello" 0 = .error (.engine .collectionNotFound) ∧
    api_search (fun _ => []) (fun _ _ => []) (fun q => q) (fun q => q)
        emptyEngine "hello" 0 ≠ .error .validation :=
  ⟨rfl, fun h => by injection h with h2; cases h2⟩

/-- C9 amended: an empty or whitespace-only query is rejected as a
validation error before any I/O — uniformly in the engine state and in
every external collaborator, so no embedding, backend or scoring call can
influence the outcome; `K ≤ 0`, by contrast, is not validated anywhere on
the search path. -/
theorem c9_empty_query_rejected_before_io
    (backendHits : Nat → List VecHit)
    (getScores : List (List String) → List String → List ℚ)
    (log2 log1p : ℚ → ℚ) (st : EngineState) (query : String) (top_k : Nat)
    (hq : pyStrip query = "") :
    api_search backendHits getScores log2 log1p st query top_k = .error .validation := by
  unfold api_search
  rw [hq]
  simp

/-- Witness for the amended C9 on a concrete whitespace-only query. -/
theorem c9_witness :
    api_search (fun _ => []) (fun _ _ => []) (fun q => q) (fun q => q)
        emptyEngine "   " 5 = .error .validation :=
  c9_empty_query_rejected_before_io (fun _ => []) (fun _ _ => []) (fun q => q)
    (fun q => q) emptyEngine "   " 5 (by decide)

/-- Membership in the first-occurrence deduplication: an element appears in
the output exactly when it appears in the input and was not already seen. -/
theorem mem_dedupFirstAux (l : List String) :
    ∀ (seen : List String) (t : String),
      t ∈ dedupFirstAux seen l ↔ t ∈ l ∧ t ∉ seen := by
  induction l with
  | nil => intro seen t; simp [dedupFirstAux]
  | cons a rest ih =>
    intro seen t
    by_cases ha : a ∈ seen
    · rw [dedupFirstAux, if_pos ha, ih]
      constructor
      · rintro ⟨hm, hs⟩; exact ⟨List.mem_cons_of_mem a hm, hs⟩
      · rintro ⟨hm, hs⟩
        rcases List.mem_cons.mp hm with hm | hm
        · exact absurd (hm ▸ ha) hs
        · exact ⟨hm, hs⟩
    · rw [dedupFirstAux, if_neg ha]
      constructor
      · intro hmem
        rcases List.mem_cons.mp hmem with hm | hm
        · exact ⟨hm ▸ List.mem_cons_self a rest, hm ▸ ha⟩
        · obtain ⟨h1, h2⟩ := (ih (a :: seen) t).mp hm
          exact ⟨List.mem_cons_of_mem a h1,
                 fun hs => h2 (List.mem_cons_of_mem a hs)⟩
      · rintro ⟨hm, hs⟩
        by_cases hta : t = a
        · exact hta ▸ List.mem_cons_self a _
        · rcases List.mem_cons.mp hm with hm | hm
          · exact absurd hm hta
          · exact List.mem_cons_of_mem a ((ih (a :: seen) t).mpr
              ⟨hm, fun hc => (List.mem_cons.mp hc).elim hta hs⟩)

/-- The first-occurrence deduplication never emits a duplicate. -/
theorem nodup_dedupFirstAux (l : List String) :
    ∀ seen : List String, (dedupFirstAux seen l).Nodup := by
  induction l with
  | nil => intro seen; simp [dedupFirstAux]
  | cons a rest ih =>
    intro seen
    by_cases ha : a ∈ seen
    · rw [dedupFirstAux, if_pos ha]; exact ih seen
    · rw [dedupFirstAux, if_neg ha]
      refine List.nodup_cons.mpr ⟨?_, ih (a :: seen)⟩
      intro hmem
      exact ((mem_dedupFirstAux rest (a :: seen) a).mp hmem).2 (List.mem_cons_self a seen)

/-- C8 counterexample: on the input `crispr-cas9` the tokenizer the claim
describes yields only the hyphenated compound, while `_tokenize_and_stem`
additionally emits the compound's components (its second `re.findall` pass
matches the plain alphanumeric runs), so the claim's "extracts exactly"
fails. -/
theorem c8_counterexample :
    tokenizeClaimC8 "crispr-cas9" = ["crispr-cas9"] ∧
    tokenize_and_stem "crispr-cas9" = ["crispr-cas9", "crispr", "cas9"] ∧
    tokenize_and_stem "crispr-cas9" ≠ tokenizeClaimC8 "crispr-cas9" := by
  refine ⟨by decide, by decide, by decide⟩

/-- C8 amended: tokenization lowercases; extracts the
alphanumerics-with-internal-hyphens compound tokens and also, appended
after them, the plain alphanumeric runs (so the components of a hyphenated
compound appear as separate tokens); drops stopwords and single-character
tokens; and deduplicates preserving first occurrence.  Consequently the
output is duplicate-free, every output token is a non-stopword of length
at least 2, and every token of the claimed compound-only tokenizer
appears in the output. -/
theorem c8_tokenizer_amended (text : String) :
    (tokenize_and_stem text).Nodup ∧
    (∀ t ∈ tokenize_and_stem text, t ∉ STOPWORDS ∧ 1 < t.length) ∧
    (∀ t ∈ tokenizeClaimC8 text, t ∈ tokenize_and_stem text) := by
  refine ⟨nodup_dedupFirstAux _ [], ?_, ?_⟩
  · intro t ht
    have hf := ((mem_dedupFirstAux _ [] t).mp ht).1
    have hk := (List.mem_filter.mp hf).2
    rw [keepToken, Bool.and_eq_true, decide_eq_true_eq, decide_eq_true_eq] at hk
    exact hk
  · intro t ht
    obtain ⟨hf, -⟩ := (mem_dedupFirstAux _ [] t).mp ht
    have h1 := List.mem_filter.mp hf
    refine (mem_dedupFirstAux _ [] t).mpr ⟨List.mem_filter.mpr ⟨?_, h1.2⟩, by simp⟩
    rw [List.map_append]
    exact List.mem_append_left _ h1.1

/-- Witness for the amended C8: the compound token of the concrete input is
indeed among the tokens the code produces. -/
theorem c8_witness : "crispr-cas9" ∈ tokenize_and_stem "crispr-cas9" :=
  (c8_tokenizer_amended "crispr-cas9").2.2 "crispr-cas9" (by decide)

/-- Stable-ascending order on document indices: by score, with equal scores
by index ascending.  A stable ascending sort of distinct indices by score
orders them exactly this way. -/
def lexAsc (scores : List ℚ) (i j : Nat) : Prop :=
  scores.getD i 0 < scores.getD j 0 ∨ (scores.getD i 0 = scores.getD j 0 ∧ i ≤ j)

instance lexAscDecidable (scores : List ℚ) : DecidableRel (lexAsc scores) :=
  fun _ _ => inferInstanceAs (Decidable (_ ∨ _))

/-- Mirror order: by score descending, equal scores by index descending
(later documents first) — the order obtained by reversing a stable
ascending sort. -/
def lexDesc (scores : List ℚ) (i j : Nat) : Prop := lexAsc scores j i

instance lexDescDecidable (scores : List ℚ) : DecidableRel (lexDesc scores) :=
  fun i j => inferInstanceAs (Decidable (lexAsc scores j i))

/-- The order claim C6 states: by score descending, equal scores by index
ascending (original insertion order). -/
def claimDesc (scores : List ℚ) (i j : Nat) : Prop :=
  scores.getD j 0 < scores.getD i 0 ∨ (scores.getD i 0 = scores.getD j 0 ∧ i ≤ j)

instance claimDescDecidable (scores : List ℚ) : DecidableRel (claimDesc scores) :=
  fun _ _ => inferInstanceAs (Decidable (_ ∨ _))

instance lexAscTotal (scores : List ℚ) : IsTotal Nat (lexAsc scores) := by
  constructor
  intro i j
  rcases lt_trichotomy (scores.getD i 0) (scores.getD j 0) with h | h | h
  · exact Or.inl (Or.inl h)
  · rcases Nat.le_total i j with hij | hij
    · exact Or.inl (Or.inr ⟨h, hij⟩)
    · exact Or.inr (Or.inr ⟨h.symm, hij⟩)
  · exact Or.inr (Or.inl h)

instance lexAscTrans (scores : List ℚ) : IsTrans Nat (lexAsc scores) := by
  constructor
  intro a b c hab hbc
  rcases hab with h1 | ⟨e1, l1⟩
  · rcases hbc with h2 | ⟨e2, l2⟩
    · exact Or.inl (h1.trans h2)
    · exact Or.inl (by rw [← e2]; exact h1)
  · rcases hbc with h2 | ⟨e2, l2⟩
    · exact Or.inl (by rw [e1]; exact h2)
    · exact Or.inr ⟨e1.trans e2, l1.trans l2⟩

instance lexAscAntisymm (scores : List ℚ) : IsAntisymm Nat (lexAsc scores) := by
  constructor
  intro a b hab hba
  rcases hab with h1 | ⟨e1, l1⟩
  · rcases hba with h2 | ⟨e2, l2⟩
    · exact absurd (h1.trans h2) (lt_irrefl _)
    · rw [e2] at h1; exact absurd h1 (lt_irrefl _)
  · rcases hba with h2 | ⟨e2, l2⟩
    · rw [e1] at h2; exact absurd h2 (lt_irrefl _)
    · exact Nat.le_antisymm l1 l2

instance lexDescTotal (scores : List ℚ) : IsTotal Nat (lexDesc scores) :=
  ⟨fun a b => total_of (lexAsc scores) b a⟩

instance lexDescTrans (scores : List ℚ) : IsTrans Nat (lexDesc scores) :=
  ⟨fun _ _ _ hab hbc => trans_of (lexAsc scores) hbc hab⟩

instance lexDescAntisymm (scores : List ℚ) : IsAntisymm Nat (lexDesc scores) :=
  ⟨fun _ _ hab hba => antisymm_of (lexAsc scores) hba hab⟩

/-- Ordered insertion under two orderings that agree on the inserted
element against every element of the list. -/
theorem orderedInsert_congr {α : Type} (r s : α → α → Prop)
    [DecidableRel r] [DecidableRel s] (a : α) :
    ∀ l : List α, (∀ b ∈ l, r a b ↔ s a b) →
      l.orderedInsert r a = l.orderedInsert s a := by
  intro l
  induction l with
  | nil => intro _; rfl
  | cons b t ih =>
    intro h
    rw [List.orderedInsert, List.orderedInsert]
    by_cases hr : r a b
    · rw [if_pos hr, if_pos ((h b (List.mem_cons_self b t)).mp hr)]
    · rw [if_neg hr, if_neg (fun hs => hr ((h b (List.mem_cons_self b t)).mpr hs)),
        ih (fun c hc => h c (List.mem_cons_of_mem b hc))]

/-- Over strictly increasing indices, the stable ascending sort by score
coincides with the sort by the score-then-index order: an earlier index is
inserted in front of exactly the same (later) indices under both. -/
theorem insertionSort_score_eq_lexAsc (scores : List ℚ) :
    ∀ l : List Nat, l.Pairwise (· < ·) →
      List.insertionSort (fun i j => scores.getD i 0 ≤ scores.getD j 0) l
        = List.insertionSort (lexAsc scores) l := by
  intro l
  induction l with
  | nil => intro _; rfl
  | cons a t ih =>
    intro hp
    rw [List.insertionSort, List.insertionSort, ih (List.pairwise_cons.mp hp).2]
    apply orderedInsert_congr
    intro b hb
    have hab : a < b :=
      (List.pairwise_cons.mp hp).1 b ((List.mem_insertionSort _).mp hb)
    unfold lexAsc
    constructor
    · intro hle
      rcases lt_or_eq_of_le hle with h | h
      · exact Or.inl h
      · exact Or.inr ⟨h, hab.le⟩
    · intro h
      rcases h with h | ⟨he, -⟩
      · exact h.le
      · exact he.le

/-- Reversing the stable ascending sort yields the score-descending,
ties-reversed order. -/
theorem reverse_insertionSort_lexAsc (scores : List ℚ) (l : List Nat) :
    (List.insertionSort (lexAsc scores) l).reverse
      = List.insertionSort (lexDesc scores) l := by
  apply List.eq_of_perm_of_sorted (r := lexDesc scores)
  · exact ((List.reverse_perm _).trans (List.perm_insertionSort _ l)).trans
      (List.perm_insertionSort _ l).symm
  · show List.Pairwise _ _
    rw [List.pairwise_reverse]
    exact List.sorted_insertionSort (lexAsc scores) l
  · exact List.sorted_insertionSort (lexDesc scores) l

/-- BM25 candidate choice exactly as claim C6 words it: the strictly
positive documents, ordered by score descending with equal scores in
original insertion order, truncated to the requested candidate count. -/
def bm25SelectClaimC6 (texts : List String) (scores : List ℚ) (top_k : Nat) :
    List (String × ℚ) :=
  let positives :=
    (List.range scores.length).filter (fun i => decide (0 < scores.getD i 0))
  ((List.insertionSort (claimDesc scores) positives).take top_k).map
    (fun idx => (texts.getD idx "", scores.getD idx 0))

/-- BM25 candidate choice as the amended claim describes it: order all
document indices by score descending with equal scores broken by reverse
insertion order (later documents first), apply the candidate-count window
(a count of zero, Python's `[-0:]`, meaning no truncation), then keep the
documents with strictly positive scores. -/
def bm25SelectAmended (texts : List String) (scores : List ℚ) (top_k : Nat) :
    List (String × ℚ) :=
  let order := List.insertionSort (lexDesc scores) (List.range scores.length)
  let window := order.take (if top_k = 0 then scores.length else top_k)
  window.filterMap fun idx =>
    if 0 < scores.getD idx 0 then some (texts.getD idx "", scores.getD idx 0) else none

/-- The selection step of `_bm25_search` computes the amended ordering. -/
theorem bm25Select_eq_amended (texts : List String) (scores : List ℚ) (top_k : Nat) :
    bm25Select texts scores top_k = bm25SelectAmended texts scores top_k := by
  simp only [bm25Select, bm25SelectAmended, pyTailSlice, argsortAsc]
  rw [insertionSort_score_eq_lexAsc scores _ (List.pairwise_lt_range _)]
  have hlen : (List.insertionSort (lexAsc scores) (List.range scores.length)).length
      = scores.length := by
    rw [List.length_insertionSort, List.length_range]
  have hlen2 : (List.insertionSort (lexDesc scores) (List.range scores.length)).length
      = scores.length := by
    rw [List.length_insertionSort, List.length_range]
  by_cases hk : top_k = 0
  · rw [if_pos hk, hk, if_pos rfl, reverse_insertionSort_lexAsc,
      List.take_of_length_le (le_of_eq hlen2)]
  · rw [if_neg hk, if_neg hk, List.reverse_drop, hlen, reverse_insertionSort_lexAsc]
    rcases le_or_lt top_k scores.length with hle | hlt
    · rw [Nat.sub_sub_self hle]
    · rw [Nat.sub_eq_zero_of_le hlt.le, Nat.sub_zero,
        List.take_of_length_le (le_of_eq hlen2),
        List.take_of_length_le (le_of_eq hlen2 |>.trans hlt.le)]

/-- C6 counterexample: two identical stored documents necessarily receive
equal library scores; with scores `[1, 1]` the code returns document 1
before document 0, while the claim's original-insertion-order tie-break
demands document 0 first. -/
theorem c6_counterexample :
    bm25Select ["doc zero", "doc one"] [1, 1] 4 = [("doc one", 1), ("doc zero", 1)] ∧
    bm25SelectClaimC6 ["doc zero", "doc one"] [1, 1] 4
      = [("doc zero", 1), ("doc one", 1)] ∧
    bm25Select ["doc zero", "doc one"] [1, 1] 4
      ≠ bm25SelectClaimC6 ["doc zero", "doc one"] [1, 1] 4 :=
  ⟨by decide, by decide, by decide⟩

/-- C6 amended: over a non-empty lexical index the BM25 sub-search returns
exactly the stored documents with strictly positive score against the
tokenized query, up to the requested candidate count (a count of zero —
Python's `[-0:]` — meaning no truncation), ordered by score descending
with equal scores broken by REVERSE insertion order, later documents
first, as the code reverses a stable ascending argsort. -/
theorem c6_bm25_order_amended
    (getScores : List (List String) → List String → List ℚ)
    (corpus : List (List String)) (bm25_texts : List String)
    (query : String) (top_k : Nat) (h : bm25_texts ≠ []) :
    bm25_search getScores (some corpus) bm25_texts query top_k
      = bm25SelectAmended bm25_texts
          (getScores corpus (tokenize_and_stem query)) top_k := by
  have hne : bm25_texts.isEmpty = false := by
    cases bm25_texts with
    | nil => exact absurd rfl h
    | cons a t => rfl
  rw [bm25_search]
  rw [if_neg (by simp [hne])]
  exact bm25Select_eq_amended _ _ _

/-- Witness for the amended C6 on a concrete two-document corpus with tied
scores. -/
theorem c6_witness :
    bm25_search (fun _ _ => [1, 1]) (some [["tok"]]) ["doc zero", "doc one"] "q" 4
      = bm25SelectAmended ["doc zero", "doc one"] [1, 1] 4 :=
  c6_bm25_order_amended (fun _ _ => [1, 1]) [["tok"]] ["doc zero", "doc one"] "q" 4
    (by decide)

/-- The damped vector contribution of the hit at 0-based position `i`
(1-based rank `i+1`), exactly the expression of the vector loop. -/
def vecScoreAt (log2 : ℚ → ℚ) (w : ℚ) (i : Nat) (h : VecHit) : ℚ :=
  w * max 0 ((h.score + 1) / 2) * (1 / log2 (((i : ℚ) + 1) + 1))

/-- The damped lexical contribution of the pair at 0-based position `i`,
exactly the expression of the BM25 loop. -/
def bm25ScoreAt (log2 log1p : ℚ → ℚ) (w : ℚ) (i : Nat) (p : String × ℚ) : ℚ :=
  w * log1p p.2 * (1 / log2 (((i : ℚ) + 1) + 1))

/-- First occurrence of a merge key among the vector sub-results (counting
positions from `j`), with its damped contribution. -/
def vecContribFrom (log2 : ℚ → ℚ) (w : ℚ) (key : String) :
    Nat → List VecHit → Option ℚ
  | _, [] => none
  | j, h :: rest =>
    if pyStrip h.content = key then some (vecScoreAt log2 w j h)
    else vecContribFrom log2 w key (j + 1) rest

/-- First occurrence of a merge key among the lexical sub-results, with its
damped contribution. -/
def bm25ContribFrom (log2 log1p : ℚ → ℚ) (w : ℚ) (key : String) :
    Nat → List (String × ℚ) → Option ℚ
  | _, [] => none
  | j, p :: rest =>
    if pyStrip p.1 = key then some (bm25ScoreAt log2 log1p w j p)
    else bm25ContribFrom log2 log1p w key (j + 1) rest

/-- Spec-side vector contribution of a merge key: the damped normalized
score at the key's rank in the vector sub-list, `0` when the key is
absent. -/
def specVectorContrib (log2 : ℚ → ℚ) (w : ℚ) (vr : List VecHit) (key : String) : ℚ :=
  (vecContribFrom log2 w key 0 vr).getD 0

/-- Spec-side lexical contribution of a merge key. -/
def specBm25Contrib (log2 log1p : ℚ → ℚ) (w : ℚ) (br : List (String × ℚ))
    (key : String) : ℚ :=
  (bm25ContribFrom log2 log1p w key 0 br).getD 0

/-- Spec-side merged candidates: the merge keys in first-encounter order
(vector keys, then new lexical keys), each with its vector and lexical
contributions (the absent side contributing `0`). -/
def specCandidates (log2 log1p : ℚ → ℚ) (wv wb : ℚ)
    (vr : List VecHit) (br : List (String × ℚ)) : List (String × ℚ × ℚ) :=
  (dedupFirstAux []
      (vr.map (fun h => pyStrip h.content) ++ br.map (fun p => pyStrip p.1))).map
    (fun k => (k, specVectorContrib log2 wv vr k, specBm25Contrib log2 log1p wb br k))

/-- Spec-side final ranking: stable descending sort of the merged
candidates by summed contribution (ties keeping first-encounter order),
truncated to the top `K`. -/
def specMerge (log2 log1p : ℚ → ℚ) (wv wb : ℚ)
    (vr : List VecHit) (br : List (String × ℚ)) (top_k : Nat) :
    List (String × ℚ × ℚ) :=
  (List.insertionSort (fun a b => b.2.1 + b.2.2 ≤ a.2.1 + a.2.2)
      (specCandidates log2 log1p wv wb vr br)).take top_k

/-- Keys of the combined association list. -/
def entryKeys (m : List (String × FusionEntry)) : List String := m.map Prod.fst

/-- The entry the vector loop writes for the hit at position `i`. -/
def vecEntry (log2 : ℚ → ℚ) (w : ℚ) (i : Nat) (h : VecHit) : String × FusionEntry :=
  (pyStrip h.content, ⟨vecScoreAt log2 w i h, 0, h.payload, h.content⟩)

/-- The entries the vector loop writes for a hit list starting at
position `i`. -/
def vecEntries (log2 : ℚ → ℚ) (w : ℚ) : Nat → List VecHit → List (String × FusionEntry)
  | _, [] => []
  | i, h :: rest => vecEntry log2 w i h :: vecEntries log2 w (i + 1) rest

/-- The cumulative update the BM25 loop performs on a pre-existing entry:
the first remaining item with a matching key sets the `bm25_score` field. -/
def applyBm25 (log2 log1p : ℚ → ℚ) (w : ℚ) (j : Nat) (brs : List (String × ℚ))
    (kv : String × FusionEntry) : String × FusionEntry :=
  match bm25ContribFrom log2 log1p w kv.1 j brs with
  | some b => (kv.1, { kv.2 with bm25_score := b })
  | none => kv

/-- The entries the BM25 loop appends for keys absent from `seen`. -/
def newBm25Entries (log2 log1p : ℚ → ℚ) (w : ℚ) :
    Nat → List (String × ℚ) → List String → List (String × FusionEntry)
  | _, [], _ => []
  | j, (t, s) :: rest, seen =>
    if pyStrip t ∈ seen then newBm25Entries log2 log1p w (j + 1) rest seen
    else (pyStrip t, ⟨0, bm25ScoreAt log2 log1p w j (t, s),
            [("content", t), ("doc_type", "unknown")], t⟩)
        :: newBm25Entries log2 log1p w (j + 1) rest seen

/-- The combined dict of `hybrid_search` after both merge loops. -/
def fusionCombined (log2 log1p : ℚ → ℚ) (weights : ℚ × ℚ)
    (vr : List VecHit) (br : List (String × ℚ)) : List (String × FusionEntry) :=
  processBm25 log2 log1p weights.2 0 br (processVector log2 weights.1 0 vr [])

/-- Dict lookup by key. -/
def lookupEntry (m : List (String × FusionEntry)) (key : String) : Option FusionEntry :=
  (m.find? (fun kv => kv.1 = key)).map Prod.snd

/-- Projection of a combined entry to its merge key and score pair. -/
def projT (kv : String × FusionEntry) : String × ℚ × ℚ :=
  (kv.1, kv.2.vector_score, kv.2.bm25_score)

/-- Dict assignment with a fresh key appends. -/
theorem dictInsert_of_not_mem (m : List (String × FusionEntry)) (key : String)
    (e : FusionEntry) (h : key ∉ entryKeys m) :
    dictInsert m key e = m ++ [(key, e)] := by
  have hc : (m.any fun kv => kv.1 = key) = false := by
    rw [List.any_eq_false]
    intro kv hmem
    simp only [decide_eq_true_eq]
    intro hk
    exact h (List.mem_map.mpr ⟨kv, hmem, hk⟩)
  unfold dictInsert
  rw [hc]
  simp

/-- Keys of the vector-loop entries are the stripped contents, in order. -/
theorem entryKeys_vecEntries (log2 : ℚ → ℚ) (w : ℚ) :
    ∀ (l : List VecHit) (i : Nat),
      entryKeys (vecEntries log2 w i l) = l.map (fun h => pyStrip h.content) := by
  intro l
  induction l with
  | nil => intro i; rfl
  | cons h rest ih =>
    intro i
    simp only [vecEntries, entryKeys, List.map_cons]
    exact congrArg _ (ih (i + 1))

/-- The vector loop over hits with fresh, pairwise distinct keys appends
one entry per hit, in order, with the damped contribution of its
position. -/
theorem processVector_eq (log2 : ℚ → ℚ) (w : ℚ) :
    ∀ (hits : List VecHit) (i : Nat) (m : List (String × FusionEntry)),
      (hits.map (fun h => pyStrip h.content)).Nodup →
      (∀ h ∈ hits, pyStrip h.content ∉ entryKeys m) →
      processVector log2 w i hits m = m ++ vecEntries log2 w i hits := by
  intro hits
  induction hits with
  | nil => intro i m _ _; simp [processVector, vecEntries]
  | cons h rest ih =>
    intro i m hnd hdis
    simp only [processVector, vecEntries]
    rw [dictInsert_of_not_mem m _ _ (hdis h (List.mem_cons_self h rest))]
    show processVector log2 w (i + 1) rest (m ++ [vecEntry log2 w i h])
        = m ++ vecEntry log2 w i h :: vecEntries log2 w (i + 1) rest
    rw [ih (i + 1) (m ++ [vecEntry log2 w i h]) (by simpa using hnd.of_cons) ?hfresh]
    · simp [List.append_assoc]
    case hfresh =>
      intro h2 hmem
      have hhead : pyStrip h.content ∉ rest.map (fun h => pyStrip h.content) := by
        have h2nd := hnd
        rw [List.map_cons, List.nodup_cons] at h2nd
        exact h2nd.1
      have hne : pyStrip h2.content ≠ pyStrip h.content := fun he =>
        hhead (he ▸ List.mem_map.mpr ⟨h2, hmem, rfl⟩)
      intro hk
      rw [entryKeys, List.map_append] at hk
      rcases List.mem_append.mp hk with hk | hk
      · exact hdis h2 (List.mem_cons_of_mem h hmem) hk
      · simp only [List.map_cons, List.map_nil, List.mem_singleton] at hk
        exact hne hk

/-- The BM25 matching loop misses when no entry has the key. -/
theorem setBm25_of_not_mem (key : String) (b : ℚ) :
    ∀ m : List (String × FusionEntry), key ∉ entryKeys m → setBm25 m key b = none := by
  intro m
  induction m with
  | nil => intro _; rfl
  | cons kv rest ih =>
    obtain ⟨k, e⟩ := kv
    intro h
    have hk : k ≠ key := fun he => h (List.mem_map.mpr ⟨(k, e), List.mem_cons_self _ _, he⟩)
    rw [setBm25, if_neg hk, ih (fun hm => h (List.mem_cons_of_mem _ hm))]
    rfl

/-- With pairwise distinct keys, the BM25 matching loop updates exactly the
entry carrying the key. -/
theorem setBm25_of_nodup_mem (key : String) (b : ℚ) :
    ∀ m : List (String × FusionEntry), (entryKeys m).Nodup → key ∈ entryKeys m →
      setBm25 m key b
        = some (m.map fun kv =>
            if kv.1 = key then (kv.1, { kv.2 with bm25_score := b }) else kv) := by
  intro m
  induction m with
  | nil => intro _ h; exact absurd h (by simp [entryKeys])
  | cons kv rest ih =>
    obtain ⟨k, e⟩ := kv
    intro hnd hmem
    have hnd2 := hnd
    rw [entryKeys, List.map_cons, List.nodup_cons] at hnd2
    by_cases hk : k = key
    · subst hk
      rw [setBm25, if_pos rfl]
      have hrest : (rest.map fun kv =>
          if kv.1 = k then (kv.1, { kv.2 with bm25_score := b }) else kv) = rest := by
        have hpt : ∀ kv2 ∈ rest, (if kv2.1 = k then (kv2.1, { kv2.2 with bm25_score := b })
            else kv2) = id kv2 := by
          intro kv2 hm2
          simp only [id_eq]
          rw [if_neg]
          intro hx
          exact hnd2.1 (List.mem_map.mpr ⟨kv2, hm2, hx⟩)
        rw [List.map_congr_left hpt, List.map_id]
      rw [List.map_cons, if_pos rfl, hrest]
    · rw [setBm25, if_neg hk]
      have hmem2 : key ∈ entryKeys rest := by
        rcases List.mem_cons.mp hmem with hx | hx
        · exact absurd hx.symm hk
        · exact hx
      rw [ih hnd2.2 hmem2, Option.map_some', List.map_cons, if_neg hk]

/-- A key absent from the lexical sub-results has no first occurrence. -/
theorem bm25ContribFrom_of_not_mem (log2 log1p : ℚ → ℚ) (w : ℚ) (key : String) :
    ∀ (brs : List (String × ℚ)) (j : Nat),
      key ∉ brs.map (fun p => pyStrip p.1) →
      bm25ContribFrom log2 log1p w key j brs = none := by
  intro brs
  induction brs with
  | nil => intro _ _; rfl
  | cons p rest ih =>
    obtain ⟨t, s⟩ := p
    intro j h
    rw [bm25ContribFrom, if_neg, ih (j + 1) (fun hm => h (List.mem_cons_of_mem _ hm))]
    intro he
    exact h (List.mem_map.mpr ⟨(t, s), List.mem_cons_self _ _, he⟩)

/-- A key absent from the vector sub-results has no first occurrence. -/
theorem vecContribFrom_of_not_mem (log2 : ℚ → ℚ) (w : ℚ) (key : String) :
    ∀ (vr : List VecHit) (j : Nat),
      key ∉ vr.map (fun h => pyStrip h.content) →
      vecContribFrom log2 w key j vr = none := by
  intro vr
  induction vr with
  | nil => intro _ _; rfl
  | cons h2 rest ih =>
    intro j h
    rw [vecContribFrom, if_neg, ih (j + 1) (fun hm => h (List.mem_cons_of_mem _ hm))]
    intro he
    exact h (List.mem_map.mpr ⟨h2, List.mem_cons_self _ _, he⟩)

/-- The BM25-loop update leaves the key unchanged. -/
theorem applyBm25_key (log2 log1p : ℚ → ℚ) (w : ℚ) (j : Nat) (brs : List (String × ℚ))
    (kv : String × FusionEntry) : (applyBm25 log2 log1p w j brs kv).1 = kv.1 := by
  unfold applyBm25
  split <;> rfl

/-- The BM25-loop update leaves the vector score unchanged. -/
theorem applyBm25_vector_score (log2 log1p : ℚ → ℚ) (w : ℚ) (j : Nat)
    (brs : List (String × ℚ)) (kv : String × FusionEntry) :
    (applyBm25 log2 log1p w j brs kv).2.vector_score = kv.2.vector_score := by
  unfold applyBm25
  split <;> rfl

/-- The BM25-loop update leaves the content unchanged. -/
theorem applyBm25_content (log2 log1p : ℚ → ℚ) (w : ℚ) (j : Nat)
    (brs : List (String × ℚ)) (kv : String × FusionEntry) :
    (applyBm25 log2 log1p w j brs kv).2.content = kv.2.content := by
  unfold applyBm25
  split <;> rfl

/-- The updated lexical score is the first-occurrence contribution, the
previous field value when the key never occurs. -/
theorem applyBm25_bm25_score (log2 log1p : ℚ → ℚ) (w : ℚ) (j : Nat)
    (brs : List (String × ℚ)) (kv : String × FusionEntry) :
    (applyBm25 log2 log1p w j brs kv).2.bm25_score
      = (bm25ContribFrom log2 log1p w kv.1 j brs).getD kv.2.bm25_score := by
  unfold applyBm25
  cases h : bm25ContribFrom log2 log1p w kv.1 j brs <;> rfl

/-- The BM25-loop update skips an item with a different key. -/
theorem applyBm25_cons_ne (log2 log1p : ℚ → ℚ) (w : ℚ) (j : Nat) (t : String) (s : ℚ)
    (rest : List (String × ℚ)) (kv : String × FusionEntry) (h : kv.1 ≠ pyStrip t) :
    applyBm25 log2 log1p w j ((t, s) :: rest) kv
      = applyBm25 log2 log1p w (j + 1) rest kv := by
  unfold applyBm25
  rw [bm25ContribFrom, if_neg (fun he => h he.symm)]

/-- Appended-entry recursion is insensitive to seen-set changes outside the
remaining keys. -/
theorem newBm25Entries_seen_congr (log2 log1p : ℚ → ℚ) (w : ℚ) :
    ∀ (brs : List (String × ℚ)) (j : Nat) (seen1 seen2 : List String),
      (∀ p ∈ brs, pyStrip p.1 ∈ seen1 ↔ pyStrip p.1 ∈ seen2) →
      newBm25Entries log2 log1p w j brs seen1 = newBm25Entries log2 log1p w j brs seen2 := by
  intro brs
  induction brs with
  | nil => intro _ _ _ _; rfl
  | cons p rest ih =>
    obtain ⟨t, s⟩ := p
    intro j seen1 seen2 hiff
    rw [newBm25Entries, newBm25Entries]
    by_cases h1 : pyStrip t ∈ seen1
    · rw [if_pos h1, if_pos ((hiff (t, s) (List.mem_cons_self _ _)).mp h1)]
      exact ih (j + 1) _ _ (fun p hp => hiff p (List.mem_cons_of_mem _ hp))
    · rw [if_neg h1, if_neg (fun h2 => h1 ((hiff (t, s) (List.mem_cons_self _ _)).mpr h2))]
      rw [ih (j + 1) _ _ (fun p hp => hiff p (List.mem_cons_of_mem _ hp))]

/-- Keys survive the map of the BM25-loop update. -/
theorem entryKeys_map_applyBm25 (log2 log1p : ℚ → ℚ) (w : ℚ) (j : Nat)
    (brs : List (String × ℚ)) (m : List (String × FusionEntry)) :
    entryKeys (m.map (applyBm25 log2 log1p w j brs)) = entryKeys m := by
  unfold entryKeys
  rw [List.map_map]
  exact List.map_congr_left fun kv _ => applyBm25_key log2 log1p w j brs kv

/-- Keys survive the map of the matching-entry update. -/
theorem entryKeys_map_upd (key : String) (b : ℚ) (m : List (String × FusionEntry)) :
    entryKeys (m.map fun kv =>
        if kv.1 = key then (kv.1, { kv.2 with bm25_score := b }) else kv)
      = entryKeys m := by
  unfold entryKeys
  rw [List.map_map]
  apply List.map_congr_left
  intro kv _
  by_cases h : kv.1 = key
  · simp [Function.comp, h]
  · simp [Function.comp, h]

/-- One BM25 loop step on a matched key (the entry keys being pairwise
distinct) updates that entry in place. -/
theorem processBm25_cons_mem (log2 log1p : ℚ → ℚ) (w : ℚ) (j : Nat) (t : String) (s : ℚ)
    (rest : List (String × ℚ)) (m : List (String × FusionEntry))
    (hm : (entryKeys m).Nodup) (hk : pyStrip t ∈ entryKeys m) :
    processBm25 log2 log1p w j ((t, s) :: rest) m
      = processBm25 log2 log1p w (j + 1) rest
          (m.map fun kv => if kv.1 = pyStrip t
            then (kv.1, { kv.2 with bm25_score := bm25ScoreAt log2 log1p w j (t, s) })
            else kv) := by
  simp only [processBm25]
  rw [setBm25_of_nodup_mem _ _ m hm hk]
  rfl

/-- One BM25 loop step on an unmatched key appends the fresh entry. -/
theorem processBm25_cons_new (log2 log1p : ℚ → ℚ) (w : ℚ) (j : Nat) (t : String) (s : ℚ)
    (rest : List (String × ℚ)) (m : List (String × FusionEntry))
    (hk : pyStrip t ∉ entryKeys m) :
    processBm25 log2 log1p w j ((t, s) :: rest) m
      = processBm25 log2 log1p w (j + 1) rest
          (m ++ [(pyStrip t, ⟨0, bm25ScoreAt log2 log1p w j (t, s),
              [("content", t), ("doc_type", "unknown")], t⟩)]) := by
  simp only [processBm25]
  rw [setBm25_of_not_mem _ _ m hk]
  rfl

/-- The matched-key update commutes with skipping the item for other keys:
after one step on `(t, s)`, updating the rest is the same as the whole
update — the pointwise account of the BM25 loop. -/
theorem applyBm25_cons_of_upd (log2 log1p : ℚ → ℚ) (w : ℚ) (j : Nat) (t : String) (s : ℚ)
    (rest : List (String × ℚ)) (hrest : pyStrip t ∉ rest.map (fun p => pyStrip p.1))
    (kv : String × FusionEntry) :
    applyBm25 log2 log1p w (j + 1) rest
        (if kv.1 = pyStrip t
          then (kv.1, { kv.2 with bm25_score := bm25ScoreAt log2 log1p w j (t, s) })
          else kv)
      = applyBm25 log2 log1p w j ((t, s) :: rest) kv := by
  by_cases hkey : kv.1 = pyStrip t
  · rw [if_pos hkey]
    unfold applyBm25
    rw [bm25ContribFrom, if_pos hkey.symm]
    rw [show bm25ContribFrom log2 log1p w
          ((kv.1, { kv.2 with bm25_score := bm25ScoreAt log2 log1p w j (t, s) }) :
            String × FusionEntry).1 (j + 1) rest = none from
        bm25ContribFrom_of_not_mem log2 log1p w _ rest (j + 1)
          (by show kv.1 ∉ _; rw [hkey]; exact hrest)]
  · rw [if_neg hkey, applyBm25_cons_ne log2 log1p w j t s rest kv hkey]

/-- The BM25 loop over sub-results with pairwise distinct keys: every
pre-existing entry receives its first-occurrence contribution (if any) and
one fresh entry is appended, in order, per unmatched key. -/
theorem processBm25_eq (log2 log1p : ℚ → ℚ) (w : ℚ) :
    ∀ (brs : List (String × ℚ)) (j : Nat) (m : List (String × FusionEntry)),
      (brs.map (fun p => pyStrip p.1)).Nodup →
      (entryKeys m).Nodup →
      processBm25 log2 log1p w j brs m
        = m.map (applyBm25 log2 log1p w j brs)
          ++ newBm25Entries log2 log1p w j brs (entryKeys m) := by
  intro brs
  induction brs with
  | nil =>
    intro j m _ _
    simp only [processBm25, newBm25Entries, List.append_nil]
    have hid : ∀ kv ∈ m, applyBm25 log2 log1p w j [] kv = id kv := fun kv _ => rfl
    rw [List.map_congr_left hid, List.map_id]
  | cons p rest ih =>
    obtain ⟨t, s⟩ := p
    intro j m hbr hm
    have hbr2 := hbr
    rw [List.map_cons, List.nodup_cons] at hbr2
    by_cases hk : pyStrip t ∈ entryKeys m
    · rw [processBm25_cons_mem log2 log1p w j t s rest m hm hk]
      rw [ih (j + 1) _ hbr2.2 (by rw [entryKeys_map_upd]; exact hm)]
      rw [entryKeys_map_upd]
      congr 1
      · rw [List.map_map]
        apply List.map_congr_left
        intro kv _
        exact applyBm25_cons_of_upd log2 log1p w j t s rest hbr2.1 kv
      · conv_rhs => rw [newBm25Entries]
        rw [if_pos hk]
    · rw [processBm25_cons_new log2 log1p w j t s rest m hk]
      have hnodup2 : (entryKeys m ++ [pyStrip t]).Nodup := by
        rw [List.nodup_append]
        refine ⟨hm, List.nodup_singleton _, ?_⟩
        intro a ha hb
        rw [List.mem_singleton] at hb
        exact hk (hb ▸ ha)
      have hkeys : entryKeys (m ++ [(pyStrip t,
          (⟨0, bm25ScoreAt log2 log1p w j (t, s),
            [("content", t), ("doc_type", "unknown")], t⟩ : FusionEntry))])
          = entryKeys m ++ [pyStrip t] := by
        simp [entryKeys]
      rw [ih (j + 1) _ hbr2.2 (by rw [hkeys]; exact hnodup2)]
      rw [hkeys, List.map_append]
      have happly : applyBm25 log2 log1p w (j + 1) rest
          ((pyStrip t, (⟨0, bm25ScoreAt log2 log1p w j (t, s),
            [("content", t), ("doc_type", "unknown")], t⟩ : FusionEntry)))
          = (pyStrip t, (⟨0, bm25ScoreAt log2 log1p w j (t, s),
            [("content", t), ("doc_type", "unknown")], t⟩ : FusionEntry)) := by
        unfold applyBm25
        rw [show bm25ContribFrom log2 log1p w (pyStrip t) (j + 1) rest = none from
          bm25ContribFrom_of_not_mem log2 log1p w _ rest (j + 1) hbr2.1]
      have hseen : newBm25Entries log2 log1p w (j + 1) rest (entryKeys m ++ [pyStrip t])
          = newBm25Entries log2 log1p w (j + 1) rest (entryKeys m) := by
        apply newBm25Entries_seen_congr
        intro p hp
        have hne : pyStrip p.1 ≠ pyStrip t := fun he =>
          hbr2.1 (he ▸ List.mem_map.mpr ⟨p, hp, rfl⟩)
        simp [hne]
      have hmap : m.map (applyBm25 log2 log1p w (j + 1) rest)
          = m.map (applyBm25 log2 log1p w j ((t, s) :: rest)) := by
        apply List.map_congr_left
        intro kv hkv
        have hne : kv.1 ≠ pyStrip t := fun he => hk (he ▸ List.mem_map.mpr ⟨kv, hkv, rfl⟩)
        rw [applyBm25_cons_ne log2 log1p w j t s rest kv hne]
      rw [List.map_singleton, happly, hseen, hmap]
      conv_rhs => rw [newBm25Entries]
      rw [if_neg hk, List.append_assoc, List.singleton_append]

/-- First-occurrence contribution of a vector hit at its position: when no
earlier hit shares the key, the damped score lands at the hit's own rank. -/
theorem vecContribFrom_append (log2 : ℚ → ℚ) (w : ℚ) (h : VecHit) (suf : List VecHit) :
    ∀ (pre : List VecHit) (j : Nat),
      (∀ h2 ∈ pre, pyStrip h2.content ≠ pyStrip h.content) →
      vecContribFrom log2 w (pyStrip h.content) j (pre ++ h :: suf)
        = some (vecScoreAt log2 w (j + pre.length) h) := by
  intro pre
  induction pre with
  | nil =>
    intro j _
    rw [List.nil_append, vecContribFrom, if_pos rfl]
    simp
  | cons p pre2 ih =>
    intro j hne
    rw [List.cons_append, vecContribFrom, if_neg (hne p (List.mem_cons_self _ _)),
      ih (j + 1) (fun h2 hm => hne h2 (List.mem_cons_of_mem _ hm))]
    have hidx : j + 1 + pre2.length = j + (p :: pre2).length := by
      simp only [List.length_cons]
      omega
    rw [hidx]

/-- First-occurrence contribution of a lexical item at its position. -/
theorem bm25ContribFrom_append (log2 log1p : ℚ → ℚ) (w : ℚ) (p : String × ℚ)
    (suf : List (String × ℚ)) :
    ∀ (pre : List (String × ℚ)) (j : Nat),
      (∀ p2 ∈ pre, pyStrip p2.1 ≠ pyStrip p.1) →
      bm25ContribFrom log2 log1p w (pyStrip p.1) j (pre ++ p :: suf)
        = some (bm25ScoreAt log2 log1p w (j + pre.length) p) := by
  intro pre
  induction pre with
  | nil =>
    intro j _
    rw [List.nil_append, bm25ContribFrom, if_pos rfl]
    simp
  | cons p2 pre2 ih =>
    intro j hne
    rw [List.cons_append, bm25ContribFrom, if_neg (hne p2 (List.mem_cons_self _ _)),
      ih (j + 1) (fun p3 hm => hne p3 (List.mem_cons_of_mem _ hm))]
    have hidx : j + 1 + pre2.length = j + (p2 :: pre2).length := by
      simp only [List.length_cons]
      omega
    rw [hidx]

/-- The first-occurrence deduplication depends on the seen set only through
membership. -/
theorem dedupFirstAux_congr_seen :
    ∀ (l seen1 seen2 : List String), (∀ x, x ∈ seen1 ↔ x ∈ seen2) →
      dedupFirstAux seen1 l = dedupFirstAux seen2 l := by
  intro l
  induction l with
  | nil => intro _ _ _; rfl
  | cons t rest ih =>
    intro s1 s2 hiff
    rw [dedupFirstAux, dedupFirstAux]
    by_cases h1 : t ∈ s1
    · rw [if_pos h1, if_pos ((hiff t).mp h1)]
      exact ih _ _ hiff
    · rw [if_neg h1, if_neg (fun h2 => h1 ((hiff t).mpr h2)),
        ih (t :: s1) (t :: s2) (fun x => by simp [List.mem_cons, hiff x])]

/-- Dedup of an append whose left half is duplicate-free and unseen: the
left half passes through unchanged. -/
theorem dedupFirstAux_append_left :
    ∀ (a b seen : List String), a.Nodup → (∀ x ∈ a, x ∉ seen) →
      dedupFirstAux seen (a ++ b) = a ++ dedupFirstAux (a ++ seen) b := by
  intro a
  induction a with
  | nil => intro b seen _ _; simp
  | cons x a2 ih =>
    intro b seen hnd hdis
    rw [List.cons_append, dedupFirstAux, if_neg (hdis x (List.mem_cons_self _ _))]
    rw [ih b (x :: seen) hnd.of_cons ?hdis2]
    · rw [List.cons_append,
        dedupFirstAux_congr_seen b (a2 ++ x :: seen) (x :: a2 ++ seen)
          (fun y => by simp only [List.mem_cons, List.mem_append]; tauto)]
    case hdis2 =>
      intro y hy hmem
      rcases List.mem_cons.mp hmem with he | hs
      · rw [List.nodup_cons] at hnd
        exact hnd.1 (he ▸ hy)
      · exact hdis y (List.mem_cons_of_mem _ hy) hs

/-- Dedup of a duplicate-free list filters exactly the already-seen keys. -/
theorem dedupFirstAux_nodup_filter :
    ∀ (b seen : List String), b.Nodup →
      dedupFirstAux seen b = b.filter (fun x => decide (x ∉ seen)) := by
  intro b
  induction b with
  | nil => intro _ _; rfl
  | cons x rest ih =>
    intro seen hnd
    rw [dedupFirstAux, List.filter_cons]
    by_cases hx : x ∈ seen
    · rw [if_pos hx, if_neg (by simp [hx])]
      exact ih seen hnd.of_cons
    · rw [if_neg hx, if_pos (by simp [hx])]
      congr 1
      rw [ih (x :: seen) hnd.of_cons]
      apply List.filter_congr
      intro y hy
      have hne : y ≠ x := by
        rw [List.nodup_cons] at hnd
        exact fun he => hnd.1 (he ▸ hy)
      simp [List.mem_cons, hne]

/-- Projection of the vector half of the combined dict: each hit's entry
carries the spec-side vector contribution at its rank and the spec-side
lexical contribution of its key. -/
theorem vecPart_proj (log2 log1p : ℚ → ℚ) (wv wb : ℚ) (br : List (String × ℚ)) :
    ∀ (suf pre : List VecHit),
      ((pre ++ suf).map (fun h => pyStrip h.content)).Nodup →
      ((vecEntries log2 wv pre.length suf).map (applyBm25 log2 log1p wb 0 br)).map projT
        = (suf.map (fun h => pyStrip h.content)).map
            (fun k => (k, specVectorContrib log2 wv (pre ++ suf) k,
                       specBm25Contrib log2 log1p wb br k)) := by
  intro suf
  induction suf with
  | nil => intro pre _; rfl
  | cons h rest ih =>
    intro pre hnd
    rw [vecEntries, List.map_cons, List.map_cons, List.map_cons, List.map_cons]
    congr 1
    · unfold projT
      rw [applyBm25_key, applyBm25_vector_score, applyBm25_bm25_score]
      have hpre : ∀ h2 ∈ pre, pyStrip h2.content ≠ pyStrip h.content := by
        intro h2 hm he
        have hx := hnd
        rw [List.map_append, List.nodup_append] at hx
        exact hx.2.2 (List.mem_map.mpr ⟨h2, hm, rfl⟩)
          (List.mem_cons.mpr (Or.inl he))
      have hv : specVectorContrib log2 wv (pre ++ h :: rest) (pyStrip h.content)
          = vecScoreAt log2 wv pre.length h := by
        unfold specVectorContrib
        rw [vecContribFrom_append log2 wv h rest pre 0 hpre]
        simp
      rw [hv]
      rfl
    · have hnd2 : (((pre ++ [h]) ++ rest).map (fun h => pyStrip h.content)).Nodup := by
        rw [List.append_assoc, List.singleton_append]
        exact hnd
      have htail := ih (pre ++ [h]) hnd2
      rw [List.length_append] at htail
      rw [List.append_assoc, List.singleton_append] at htail
      exact htail

/-- Projection of the appended half of the combined dict: one fresh entry
per unseen key, carrying vector contribution 0 and the spec-side lexical
contribution at the item's rank. -/
theorem newPart_proj (log2 log1p : ℚ → ℚ) (wv wb : ℚ) (vr : List VecHit)
    (seen : List String)
    (hseen : ∀ k, k ∈ seen ↔ k ∈ vr.map (fun h => pyStrip h.content)) :
    ∀ (suf pre : List (String × ℚ)),
      ((pre ++ suf).map (fun p => pyStrip p.1)).Nodup →
      (newBm25Entries log2 log1p wb pre.length suf seen).map projT
        = ((suf.map (fun p => pyStrip p.1)).filter (fun k => decide (k ∉ seen))).map
            (fun k => (k, specVectorContrib log2 wv vr k,
                       specBm25Contrib log2 log1p wb (pre ++ suf) k)) := by
  intro suf
  induction suf with
  | nil => intro pre _; rfl
  | cons p rest ih =>
    obtain ⟨t, s⟩ := p
    intro pre hnd
    have hnd2 : (((pre ++ [(t, s)]) ++ rest).map (fun p => pyStrip p.1)).Nodup := by
      rw [List.append_assoc, List.singleton_append]
      exact hnd
    have htail := ih (pre ++ [(t, s)]) hnd2
    rw [List.length_append] at htail
    simp only [List.length_singleton] at htail
    rw [List.append_assoc, List.singleton_append] at htail
    rw [newBm25Entries, List.map_cons, List.filter_cons]
    by_cases hx : pyStrip t ∈ seen
    · rw [if_pos hx, if_neg (by simp [hx])]
      exact htail
    · rw [if_neg hx, if_pos (by simp [hx])]
      have hpre : ∀ p2 ∈ pre, pyStrip p2.1 ≠ pyStrip t := by
        intro p2 hm he
        have hy := hnd
        rw [List.map_append, List.nodup_append] at hy
        exact hy.2.2 (List.mem_map.mpr ⟨p2, hm, rfl⟩)
          (List.mem_cons.mpr (Or.inl he))
      have hv0 : specVectorContrib log2 wv vr (pyStrip t) = 0 := by
        unfold specVectorContrib
        rw [vecContribFrom_of_not_mem log2 wv _ vr 0 (fun hm => hx ((hseen _).mpr hm))]
        rfl
      have hb : specBm25Contrib log2 log1p wb (pre ++ (t, s) :: rest) (pyStrip t)
          = bm25ScoreAt log2 log1p wb pre.length (t, s) := by
        unfold specBm25Contrib
        rw [bm25ContribFrom_append log2 log1p wb (t, s) rest pre 0 hpre]
        simp
      have hhead : projT ((pyStrip t, (⟨0, bm25ScoreAt log2 log1p wb pre.length (t, s),
            [("content", t), ("doc_type", "unknown")], t⟩ : FusionEntry)))
          = (pyStrip t, specVectorContrib log2 wv vr (pyStrip t),
             specBm25Contrib log2 log1p wb (pre ++ (t, s) :: rest) (pyStrip t)) := by
        show (pyStrip t, (0 : ℚ), bm25ScoreAt log2 log1p wb pre.length (t, s)) = _
        rw [hv0, hb]
      rw [List.map_cons, hhead, htail]
      rfl

/-- The combined dict projects to the spec-side candidate list when the two
sub-results carry pairwise distinct stripped keys. -/
theorem fusionCombined_proj (log2 log1p : ℚ → ℚ) (wv wb : ℚ)
    (vr : List VecHit) (br : List (String × ℚ))
    (hv : (vr.map (fun h => pyStrip h.content)).Nodup)
    (hb : (br.map (fun p => pyStrip p.1)).Nodup) :
    (fusionCombined log2 log1p (wv, wb) vr br).map projT
      = specCandidates log2 log1p wv wb vr br := by
  unfold fusionCombined
  rw [processVector_eq log2 wv vr 0 [] hv
    (fun h _ hk => absurd hk (List.not_mem_nil _)), List.nil_append]
  have hkeys : entryKeys (vecEntries log2 wv 0 vr) = vr.map (fun h => pyStrip h.content) :=
    entryKeys_vecEntries log2 wv vr 0
  rw [processBm25_eq log2 log1p wb br 0 _ hb (by rw [hkeys]; exact hv)]
  rw [List.map_append, hkeys]
  have h1 := vecPart_proj log2 log1p wv wb br vr [] hv
  simp only [List.length_nil, List.nil_append] at h1
  have h2 := newPart_proj log2 log1p wv wb vr (vr.map (fun h => pyStrip h.content))
      (fun _ => Iff.rfl) br [] hb
  simp only [List.length_nil, List.nil_append] at h2
  rw [h1, h2]
  unfold specCandidates
  rw [dedupFirstAux_append_left (vr.map (fun h => pyStrip h.content))
    (br.map (fun p => pyStrip p.1)) [] hv (fun x _ hx => absurd hx (List.not_mem_nil x))]
  rw [List.append_nil, dedupFirstAux_nodup_filter (br.map (fun p => pyStrip p.1)) _ hb]
  rw [List.map_append]

/-- Mapping a relation-preserving function commutes with ordered insertion. -/
theorem map_orderedInsert_rel {α β : Type} (f : α → β) (r : α → α → Prop) (s : β → β → Prop)
    [DecidableRel r] [DecidableRel s] (hrs : ∀ a b, r a b ↔ s (f a) (f b)) (a : α) :
    ∀ l : List α, (l.orderedInsert r a).map f = (l.map f).orderedInsert s (f a) := by
  intro l
  induction l with
  | nil => rfl
  | cons b t ih =>
    rw [List.orderedInsert, List.map_cons, List.orderedInsert]
    by_cases h : r a b
    · rw [if_pos h, if_pos ((hrs a b).mp h), List.map_cons, List.map_cons]
    · rw [if_neg h, if_neg (fun hs2 => h ((hrs a b).mpr hs2)), List.map_cons, ih]

/-- Mapping a relation-preserving function commutes with insertion sort. -/
theorem map_insertionSort_rel {α β : Type} (f : α → β) (r : α → α → Prop) (s : β → β → Prop)
    [DecidableRel r] [DecidableRel s] (hrs : ∀ a b, r a b ↔ s (f a) (f b)) :
    ∀ l : List α, (List.insertionSort r l).map f = List.insertionSort s (l.map f) := by
  intro l
  induction l with
  | nil => rfl
  | cons b t ih =>
    rw [List.insertionSort, List.map_cons, List.insertionSort, ← ih,
      map_orderedInsert_rel f r s hrs]

/-- Every vector-loop entry's key is its stripped content. -/
theorem vecEntries_strip (log2 : ℚ → ℚ) (w : ℚ) :
    ∀ (l : List VecHit) (i : Nat) (kv : String × FusionEntry),
      kv ∈ vecEntries log2 w i l → pyStrip kv.2.content = kv.1 := by
  intro l
  induction l with
  | nil => intro i kv h; exact absurd h (List.not_mem_nil kv)
  | cons h2 rest ih =>
    intro i kv hm
    rcases List.mem_cons.mp hm with he | hm2
    · rw [he]; rfl
    · exact ih (i + 1) kv hm2

/-- Every appended BM25 entry's key is its stripped content. -/
theorem newBm25Entries_strip (log2 log1p : ℚ → ℚ) (w : ℚ) :
    ∀ (brs : List (String × ℚ)) (j : Nat) (seen : List String) (kv : String × FusionEntry),
      kv ∈ newBm25Entries log2 log1p w j brs seen → pyStrip kv.2.content = kv.1 := by
  intro brs
  induction brs with
  | nil => intro j seen kv h; exact absurd h (List.not_mem_nil kv)
  | cons p rest ih =>
    obtain ⟨t, s⟩ := p
    intro j seen kv hm
    rw [newBm25Entries] at hm
    by_cases hx : pyStrip t ∈ seen
    · rw [if_pos hx] at hm
      exact ih (j + 1) seen kv hm
    · rw [if_neg hx] at hm
      rcases List.mem_cons.mp hm with he | hm2
      · rw [he]
      · exact ih (j + 1) seen kv hm2

/-- Under distinct keys, every combined entry's key is its stripped content. -/
theorem fusionCombined_strip (log2 log1p : ℚ → ℚ) (wv wb : ℚ)
    (vr : List VecHit) (br : List (String × ℚ))
    (hv : (vr.map (fun h => pyStrip h.content)).Nodup)
    (hb : (br.map (fun p => pyStrip p.1)).Nodup) :
    ∀ kv ∈ fusionCombined log2 log1p (wv, wb) vr br, pyStrip kv.2.content = kv.1 := by
  intro kv hm
  unfold fusionCombined at hm
  rw [processVector_eq log2 wv vr 0 [] hv
    (fun h _ hk => absurd hk (List.not_mem_nil _)), List.nil_append] at hm
  rw [processBm25_eq log2 log1p wb br 0 _ hb
    (by rw [entryKeys_vecEntries]; exact hv)] at hm
  rcases List.mem_append.mp hm with hm2 | hm2
  · obtain ⟨kv2, hkv2, he⟩ := List.mem_map.mp hm2
    rw [← he, applyBm25_content, applyBm25_key]
    exact vecEntries_strip log2 wv vr 0 kv2 hkv2
  · exact newBm25Entries_strip log2 log1p wb br 0 _ kv hm2

/-- The final stage of `hybrid_search` in terms of the combined dict. -/
theorem fusionRank_eq (log2 log1p : ℚ → ℚ) (wv wb : ℚ)
    (vr : List VecHit) (br : List (String × ℚ)) (top_k : Nat) :
    fusionRank log2 log1p (wv, wb) vr br top_k
      = ((rankCombined (fusionCombined log2 log1p (wv, wb) vr br)).take top_k).map
          (fun kv => ⟨kv.2.content, kv.2.metadata, kv.2.vector_score, kv.2.bm25_score,
            kv.2.vector_score + kv.2.bm25_score⟩) := rfl

/-- C4: `hybrid_search` requests `2K` candidates from each sub-search and
fuses them; when the sub-results carry pairwise distinct stripped keys,
the fused output is exactly the spec-side merge — candidates keyed by
whitespace-stripped content, a key in both sub-results summing its two
contributions and a key in only one getting `0` for the other, sorted by
combined score descending with ties broken by first-encounter insertion
order (stable), truncated to the top `K`; every returned combined score is
the sum of the two parts, and at most `K` results are returned. -/
theorem c4_fusion_is_spec_merge
    (backendHits : Nat → List VecHit)
    (getScores : List (List String) → List String → List ℚ)
    (log2 log1p : ℚ → ℚ) (st : EngineState) (pts : List PointRec)
    (query : String) (top_k : Nat) (wv wb : ℚ)
    (vr : List VecHit) (br : List (String × ℚ))
    (hcol : st.collection = some pts)
    (hvr : vr = backendHits (top_k * 2))
    (hbr : br = bm25_search getScores st.bm25_index st.bm25_texts query (top_k * 2))
    (hv : (vr.map (fun h => pyStrip h.content)).Nodup)
    (hb : (br.map (fun p => pyStrip p.1)).Nodup) :
    hybrid_search backendHits getScores log2 log1p st query top_k (wv, wb)
      = .ok (fusionRank log2 log1p (wv, wb) vr br top_k) ∧
    (fusionRank log2 log1p (wv, wb) vr br top_k).map
        (fun r => (pyStrip r.content, r.vector_score, r.bm25_score))
      = specMerge log2 log1p wv wb vr br top_k ∧
    (∀ r ∈ fusionRank log2 log1p (wv, wb) vr br top_k,
      r.combined_score = r.vector_score + r.bm25_score) ∧
    (fusionRank log2 log1p (wv, wb) vr br top_k).length ≤ top_k := by
  refine ⟨?_, ?_, ?_, ?_⟩
  · unfold hybrid_search vector_search
    rw [hcol, hvr, hbr]
  · rw [fusionRank_eq, List.map_map]
    have hcongr : ∀ kv ∈ (rankCombined (fusionCombined log2 log1p (wv, wb) vr br)).take top_k,
        ((fun r : SearchResult => (pyStrip r.content, r.vector_score, r.bm25_score)) ∘
          (fun kv : String × FusionEntry =>
            (⟨kv.2.content, kv.2.metadata, kv.2.vector_score, kv.2.bm25_score,
              kv.2.vector_score + kv.2.bm25_score⟩ : SearchResult))) kv = projT kv := by
      intro kv hkv
      have hmem : kv ∈ fusionCombined log2 log1p (wv, wb) vr br :=
        (List.mem_insertionSort _).mp (List.take_subset top_k _ hkv)
      have hstrip := fusionCombined_strip log2 log1p wv wb vr br hv hb kv hmem
      simp [projT, Function.comp, hstrip]
    rw [List.map_congr_left hcongr, List.map_take]
    unfold rankCombined
    rw [map_insertionSort_rel projT (fun a b => entryTotal b ≤ entryTotal a)
        (fun a b => b.2.1 + b.2.2 ≤ a.2.1 + a.2.2) (fun _ _ => Iff.rfl)]
    rw [fusionCombined_proj log2 log1p wv wb vr br hv hb]
    rfl
  · intro r hr
    rw [fusionRank_eq] at hr
    obtain ⟨kv, _, he⟩ := List.mem_map.mp hr
    rw [← he]
  · rw [fusionRank_eq, List.length_map]
    exact (List.length_take top_k _).trans_le (min_le_left _ _)

/-- Concrete vector sub-result used by the C4 and C5 witnesses. -/
def c4vr : List VecHit := [⟨1, 1/2, "doc a", []⟩]

/-- Witness for C4 at a concrete engine: one vector hit, empty lexical
index, top 5. -/
theorem c4_witness :
    (fusionRank (fun _ => 1) (fun q => q) ((1 : ℚ)/2, (1 : ℚ)/2) c4vr [] 5).map
        (fun r => (pyStrip r.content, r.vector_score, r.bm25_score))
      = specMerge (fun _ => 1) (fun q => q) ((1 : ℚ)/2) ((1 : ℚ)/2) c4vr [] 5 :=
  (c4_fusion_is_spec_merge (fun _ => c4vr) (fun _ _ => []) (fun _ => 1) (fun q => q)
      ⟨some [], none, []⟩ [] "q" 5 ((1 : ℚ)/2) ((1 : ℚ)/2) c4vr [] rfl rfl rfl
      (by decide) (by decide)).2.1

/-- Dict lookup distributes over append. -/
theorem lookupEntry_append (a b : List (String × FusionEntry)) (key : String) :
    lookupEntry (a ++ b) key
      = match lookupEntry a key with
        | some e => some e
        | none => lookupEntry b key := by
  unfold lookupEntry
  rw [List.find?_append]
  cases a.find? (fun kv => kv.1 = key) <;> rfl

/-- No earlier hit sharing the key means dict lookup in the mapped vector
half lands on the hit's own (updated) entry. -/
theorem lookupEntry_vecEntries_map (log2 log1p : ℚ → ℚ) (wv wb : ℚ)
    (br : List (String × ℚ)) (h : VecHit) (suf : List VecHit) :
    ∀ (pre : List VecHit) (i : Nat),
      (∀ h2 ∈ pre, pyStrip h2.content ≠ pyStrip h.content) →
      lookupEntry ((vecEntries log2 wv i (pre ++ h :: suf)).map
          (applyBm25 log2 log1p wb 0 br)) (pyStrip h.content)
        = some (applyBm25 log2 log1p wb 0 br (vecEntry log2 wv (i + pre.length) h)).2 := by
  intro pre
  induction pre with
  | nil =>
    intro i _
    rw [List.nil_append, vecEntries, List.map_cons]
    unfold lookupEntry
    rw [List.find?_cons_of_pos _ (by
      rw [decide_eq_true_eq, applyBm25_key]
      rfl)]
    simp
  | cons p pre2 ih =>
    intro i hne
    rw [List.cons_append, vecEntries, List.map_cons]
    unfold lookupEntry
    rw [List.find?_cons_of_neg _ (by
      rw [decide_eq_true_eq, applyBm25_key]
      exact hne p (List.mem_cons_self _ _))]
    have := ih (i + 1) (fun h2 hm => hne h2 (List.mem_cons_of_mem _ hm))
    unfold lookupEntry at this
    rw [this]
    have hidx : i + 1 + pre2.length = i + (p :: pre2).length := by
      simp only [List.length_cons]
      omega
    rw [hidx]

/-- A key foreign to the vector sub-results finds nothing in the mapped
vector half. -/
theorem lookupEntry_vec_map_none (log2 log1p : ℚ → ℚ) (wv wb : ℚ)
    (br : List (String × ℚ)) (key : String) :
    ∀ (vr : List VecHit) (i : Nat),
      key ∉ vr.map (fun h => pyStrip h.content) →
      lookupEntry ((vecEntries log2 wv i vr).map (applyBm25 log2 log1p wb 0 br)) key
        = none := by
  intro vr
  induction vr with
  | nil => intro i _; rfl
  | cons h rest ih =>
    intro i hk
    rw [vecEntries, List.map_cons]
    unfold lookupEntry
    rw [List.find?_cons_of_neg _ (by
      rw [decide_eq_true_eq, applyBm25_key]
      show ¬(vecEntry log2 wv i h).1 = key
      intro he
      exact hk (List.mem_map.mpr ⟨h, List.mem_cons_self _ _, he⟩))]
    have := ih (i + 1) (fun hm => hk (List.mem_cons_of_mem _ hm))
    unfold lookupEntry at this
    rw [this]

/-- No earlier item sharing the key means dict lookup among the appended
entries lands on the item's own fresh entry. -/
theorem lookupEntry_newBm25Entries (log2 log1p : ℚ → ℚ) (wb : ℚ)
    (t : String) (s : ℚ) (suf : List (String × ℚ)) :
    ∀ (pre : List (String × ℚ)) (j : Nat) (seen : List String),
      (∀ p2 ∈ pre, pyStrip p2.1 ≠ pyStrip t) →
      pyStrip t ∉ seen →
      lookupEntry (newBm25Entries log2 log1p wb j (pre ++ (t, s) :: suf) seen) (pyStrip t)
        = some ⟨0, bm25ScoreAt log2 log1p wb (j + pre.length) (t, s),
            [("content", t), ("doc_type", "unknown")], t⟩ := by
  intro pre
  induction pre with
  | nil =>
    intro j seen _ hseen
    rw [List.nil_append, newBm25Entries, if_neg hseen]
    unfold lookupEntry
    rw [List.find?_cons_of_pos _ (by rw [decide_eq_true_eq])]
    simp
  | cons p2 pre2 ih =>
    obtain ⟨t2, s2⟩ := p2
    intro j seen hne hseen
    rw [List.cons_append, newBm25Entries]
    have htail := ih (j + 1) seen (fun p3 hm => hne p3 (List.mem_cons_of_mem _ hm)) hseen
    unfold lookupEntry at htail
    by_cases hx : pyStrip t2 ∈ seen
    · rw [if_pos hx]
      unfold lookupEntry
      rw [htail]
      have hidx : j + 1 + pre2.length = j + ((t2, s2) :: pre2).length := by
        simp only [List.length_cons]
        omega
      rw [hidx]
    · rw [if_neg hx]
      unfold lookupEntry
      rw [List.find?_cons_of_neg _ (by
        rw [decide_eq_true_eq]
        exact hne (t2, s2) (List.mem_cons_self _ _))]
      rw [htail]
      have hidx : j + 1 + pre2.length = j + ((t2, s2) :: pre2).length := by
        simp only [List.length_cons]
        omega
      rw [hidx]

/-- The combined dict, under distinct keys, is the updated vector half
followed by the fresh lexical entries. -/
theorem fusionCombined_char (log2 log1p : ℚ → ℚ) (wv wb : ℚ)
    (vr : List VecHit) (br : List (String × ℚ))
    (hv : (vr.map (fun h => pyStrip h.content)).Nodup)
    (hb : (br.map (fun p => pyStrip p.1)).Nodup) :
    fusionCombined log2 log1p (wv, wb) vr br
      = (vecEntries log2 wv 0 vr).map (applyBm25 log2 log1p wb 0 br)
        ++ newBm25Entries log2 log1p wb 0 br (vr.map (fun h => pyStrip h.content)) := by
  unfold fusionCombined
  rw [processVector_eq log2 wv vr 0 [] hv
    (fun h _ hk => absurd hk (List.not_mem_nil _)), List.nil_append]
  rw [processBm25_eq log2 log1p wb br 0 _ hb
    (by rw [entryKeys_vecEntries]; exact hv)]
  rw [entryKeys_vecEntries]

/-- In a duplicate-free key list, the keys before an occurrence differ from
it (vector side). -/
theorem strip_ne_of_nodup_vec (pre suf : List VecHit) (h : VecHit)
    (hv : ((pre ++ h :: suf).map (fun h => pyStrip h.content)).Nodup) :
    ∀ h2 ∈ pre, pyStrip h2.content ≠ pyStrip h.content := by
  intro h2 hm he
  rw [List.map_append, List.nodup_append] at hv
  exact hv.2.2 (List.mem_map.mpr ⟨h2, hm, rfl⟩) (List.mem_cons.mpr (Or.inl he))

/-- In a duplicate-free key list, the keys before an occurrence differ from
it (lexical side). -/
theorem strip_ne_of_nodup_bm25 (pre suf : List (String × ℚ)) (p : String × ℚ)
    (hb : ((pre ++ p :: suf).map (fun p => pyStrip p.1)).Nodup) :
    ∀ p2 ∈ pre, pyStrip p2.1 ≠ pyStrip p.1 := by
  intro p2 hm he
  rw [List.map_append, List.nodup_append] at hb
  exact hb.2.2 (List.mem_map.mpr ⟨p2, hm, rfl⟩) (List.mem_cons.mpr (Or.inl he))

/-- C5: in the combined dict of `hybrid_search` (sub-results with pairwise
distinct stripped keys), the candidate at 1-based rank `pre.length + 1` of
the vector sub-list contributes
`vector_weight * max(0, (s+1)/2) * 1/log2(rank+1)` as its vector score,
and the candidate at 1-based rank `pre.length + 1` of the lexical sub-list
contributes `bm25_weight * log1p(score) * 1/log2(rank+1)` as its lexical
score. -/
theorem c5_rank_damped_contributions (log2 log1p : ℚ → ℚ) (wv wb : ℚ)
    (vr : List VecHit) (br : List (String × ℚ))
    (hv : (vr.map (fun h => pyStrip h.content)).Nodup)
    (hb : (br.map (fun p => pyStrip p.1)).Nodup) :
    (∀ (pre : List VecHit) (h : VecHit) (suf : List VecHit), vr = pre ++ h :: suf →
      ∃ e, lookupEntry (fusionCombined log2 log1p (wv, wb) vr br) (pyStrip h.content)
          = some e ∧
        e.vector_score
          = wv * max 0 ((h.score + 1) / 2) * (1 / log2 (((pre.length : ℚ) + 1) + 1))) ∧
    (∀ (pre : List (String × ℚ)) (p : String × ℚ) (suf : List (String × ℚ)),
      br = pre ++ p :: suf →
      ∃ e, lookupEntry (fusionCombined log2 log1p (wv, wb) vr br) (pyStrip p.1)
          = some e ∧
        e.bm25_score = wb * log1p p.2 * (1 / log2 (((pre.length : ℚ) + 1) + 1))) := by
  constructor
  · intro pre h suf hd
    subst hd
    have hne := strip_ne_of_nodup_vec pre suf h hv
    refine ⟨(applyBm25 log2 log1p wb 0 br (vecEntry log2 wv (0 + pre.length) h)).2, ?_, ?_⟩
    · rw [fusionCombined_char log2 log1p wv wb _ br hv hb, lookupEntry_append,
        lookupEntry_vecEntries_map log2 log1p wv wb br h suf pre 0 hne]
    · rw [applyBm25_vector_score]
      show vecScoreAt log2 wv (0 + pre.length) h = _
      simp [vecScoreAt, Nat.zero_add]
  · intro pre p suf hd
    subst hd
    obtain ⟨t, s⟩ := p
    have hneb := strip_ne_of_nodup_bm25 pre suf (t, s) hb
    by_cases hm : pyStrip t ∈ vr.map (fun h => pyStrip h.content)
    · obtain ⟨h2, hh2, he⟩ := List.mem_map.mp hm
      obtain ⟨pre2, suf2, hd2⟩ := List.append_of_mem hh2
      subst hd2
      have hne2 := strip_ne_of_nodup_vec pre2 suf2 h2 hv
      refine ⟨(applyBm25 log2 log1p wb 0 (pre ++ (t, s) :: suf)
          (vecEntry log2 wv (0 + pre2.length) h2)).2, ?_, ?_⟩
      · rw [fusionCombined_char log2 log1p wv wb _ _ hv hb, lookupEntry_append]
        show (match lookupEntry _ (pyStrip (t, s).1) with
          | some e => some e
          | none => lookupEntry _ (pyStrip (t, s).1)) = _
        rw [show pyStrip (t, s).1 = pyStrip h2.content from he.symm]
        rw [lookupEntry_vecEntries_map log2 log1p wv wb _ h2 suf2 pre2 0 hne2]
      · rw [applyBm25_bm25_score]
        show (bm25ContribFrom log2 log1p wb (pyStrip h2.content) 0
            (pre ++ (t, s) :: suf)).getD 0 = _
        rw [show pyStrip h2.content = pyStrip (t, s).1 from he]
        rw [bm25ContribFrom_append log2 log1p wb (t, s) suf pre 0 hneb]
        simp [bm25ScoreAt, Nat.zero_add]
    · refine ⟨⟨0, bm25ScoreAt log2 log1p wb (0 + pre.length) (t, s),
          [("content", t), ("doc_type", "unknown")], t⟩, ?_, ?_⟩
      · rw [fusionCombined_char log2 log1p wv wb _ _ hv hb, lookupEntry_append,
          lookupEntry_vec_map_none log2 log1p wv wb _ _ vr 0 hm]
        exact lookupEntry_newBm25Entries log2 log1p wb t s suf pre 0 _ hneb hm
      · simp [bm25ScoreAt, Nat.zero_add]

/-- Witness for C5: the single vector hit at rank 1 carries exactly the
damped contribution of rank 1. -/
theorem c5_witness :
    ∃ e, lookupEntry (fusionCombined (fun _ => 1) (fun q => q)
          ((1 : ℚ)/2, (1 : ℚ)/2) c4vr [("doc b", 2)]) (pyStrip "doc a") = some e ∧
      e.vector_score
        = (1 : ℚ)/2 * max 0 (((1 : ℚ)/2 + 1) / 2) * (1 / (1 : ℚ)) :=
  (c5_rank_damped_contributions (fun _ => 1) (fun q => q) ((1 : ℚ)/2) ((1 : ℚ)/2)
      c4vr [("doc b", 2)] (by decide) (by decide)).1
    [] ⟨1, 1/2, "doc a", []⟩ [] rfl
